import Mathlib

/-!
Shallow embedding of the sudoku-solver repository (`src/utils.py`).

A `SudokuGrid` instance is modelled by the structure `Grid`: the side
length `side` (`dimensions[0]` in the source, always `m * n`), the
flat list `grid` of candidate sets (`Finset ℕ`), the list `areas` of
index groups, and `subsets`, the value-subset table built by the
constructor (the values of the Python insertion-ordered dict
`self.subsets`, for keys `1, …, 2^total − 1`).

Python list indexing `self.grid[i]` is rendered as `List.getD i ∅` and
`self.grid[j] = x` as `List.set j x`; every index actually used by the
program is in range, where it is not (the solver's trial grids for side
lengths above 9) the Python program would raise, and no claim below
depends on that regime.
-/

set_option maxRecDepth 6000

/-- Base-2 logarithm with explicit fuel (so that it reduces in the kernel);
`log2F fuel n = Nat.log2 n` whenever `n ≤ fuel`, see `log2F_eq_log2`. -/
def log2F : ℕ → ℕ → ℕ
  | 0, _ => 0
  | fuel + 1, n => if 2 ≤ n then log2F fuel (n / 2) + 1 else 0

/-- Number of binary digits of `i` (`i ≥ 1`), i.e. the length of the string
`'{:b}'.format(i)`. -/
def bitLen (i : ℕ) : ℕ := log2F i i + 1

/-- `get_subset` from `SudokuGrid.__init__`: `'{:9b}'.format(i)` renders `i`
in binary right-justified to width at least 9, and character `k` (0-based,
`k < 9`) of that string is `'1'` exactly when bit `L - 1 - k` of `i` is set,
where `L = max 9 (number of binary digits of i)`.  Membership of the value
`w = k + 1` therefore reads bit `L - w`. -/
def get_subset (i : ℕ) : Finset ℕ :=
  (Finset.Icc 1 9).filter (fun w => i.testBit (max 9 (bitLen i) - w))

/-- `self.values = [_ for _ in range(1, total + 1)]`. -/
def gridValues (total : ℕ) : List ℕ := List.range' 1 total

/-- The value-subset table `{i: get_subset(i) for i in range(1, 2 ** total)}`,
in dict (= insertion) order. -/
def subsetsTable (total : ℕ) : List (Finset ℕ) :=
  (List.range' 1 (2 ^ total - 1)).map get_subset

/-- Row areas: `[[total * i + j for j in range(total)] for i in range(total)]`. -/
def rowAreas (total : ℕ) : List (List ℕ) :=
  (List.range total).map (fun i => (List.range total).map (fun j => total * i + j))

/-- Column areas: `[[total * i + j for i in range(total)] for j in range(total)]`. -/
def colAreas (total : ℕ) : List (List ℕ) :=
  (List.range total).map (fun j => (List.range total).map (fun i => total * i + j))

/-- Cells of the default block at outer indices `(i, j)`:
`[total*m*i + n*j + total*r + s for r in range(m) for s in range(n)]`
with `total = m * n`. -/
def blockCells (m n i j : ℕ) : List ℕ :=
  (List.range m).flatMap (fun r => (List.range n).map (fun s =>
    (m * n) * m * i + n * j + (m * n) * r + s))

/-- Default block areas: `[blockCells ... for i in range(n) for j in range(m)]`. -/
def blockAreas (m n : ℕ) : List (List ℕ) :=
  (List.range n).flatMap (fun i => (List.range m).map (fun j => blockCells m n i j))

/-- Supplied segments, flattened: `[[total * x[0] + x[1] for x in s] for s in segments]`. -/
def segAreas (total : ℕ) (segments : List (List (ℕ × ℕ))) : List (List ℕ) :=
  segments.map (fun s => s.map (fun x => total * x.1 + x.2))

/-- State of a `SudokuGrid` object. -/
structure Grid where
  side : ℕ
  grid : List (Finset ℕ)
  areas : List (List ℕ)
  subsets : List (Finset ℕ)
deriving DecidableEq

/-- `SudokuGrid.__init__(m, n, segments)`.  The constructor's asserts on a
supplied `segments` argument are not re-checked here; theorems about the
supplied-segments case carry them as hypotheses. -/
def mkGrid (m n : ℕ) (segments : Option (List (List (ℕ × ℕ)))) : Grid :=
  let total := m * n
  { side := total
    grid := List.replicate (total ^ 2) (gridValues total).toFinset
    areas := rowAreas total ++ colAreas total ++
      (match segments with
       | some segs => segAreas total segs
       | none => blockAreas m n)
    subsets := subsetsTable total }

/-- `SudokuGrid.set_values(row, col, values)`. -/
def set_values (G : Grid) (row col : ℕ) (vals : Finset ℕ) : Grid :=
  { G with grid := G.grid.set (row * G.side + col) vals }

/-- The `defined` property: `[len(x) == 1 for x in self.grid]`. -/
def defined (G : Grid) : List Bool := G.grid.map (fun s => s.card == 1)

/-- `list(val)[0]` for a singleton candidate set (the iteration order of a
Python set is unspecified; `is_valid` only reads this on singletons, where
any choice of element agrees). -/
def theValue (s : Finset ℕ) : ℕ := (s.sort (· ≤ ·)).headD 0

/-- `validate_area` from `SudokuGrid.is_valid`: the union of the area's
candidate sets must equal `set(self.values)` and the values of the
resolved cells of the area must be pairwise distinct. -/
def validate_area (G : Grid) (area : List ℕ) : Bool :=
  let vals := area.foldl (fun acc i => acc ∪ G.grid.getD i ∅) ∅
  let exact_vals := (area.filter (fun i => (G.grid.getD i ∅).card == 1)).map
    (fun i => theValue (G.grid.getD i ∅))
  decide (vals = (gridValues G.side).toFinset) && decide exact_vals.Nodup

/-- `SudokuGrid.is_valid`. -/
def is_valid (G : Grid) : Bool :=
  G.areas.all (fun area => validate_area G area)

/-- The list `test_idx = [i for i in area if not (self.grid[i] <= test_set)]`
of one step of `reduce_options`. -/
def testIdxOf (g : List (Finset ℕ)) (area : List ℕ) (s : Finset ℕ) : List ℕ :=
  area.filter (fun i => ! decide (g.getD i ∅ ⊆ s))

/-- The guard `len(test_idx) == self.dimensions[0] - len(test_set)`
(Python int subtraction, hence `ℤ`). -/
def stepFires (side : ℕ) (g : List (Finset ℕ)) (area : List ℕ) (s : Finset ℕ) : Prop :=
  ((testIdxOf g area s).length : ℤ) = (side : ℤ) - (s.card : ℤ)

instance (side : ℕ) (g : List (Finset ℕ)) (area : List ℕ) (s : Finset ℕ) :
    Decidable (stepFires side g area s) := by unfold stepFires; infer_instance

/-- The body of the two nested loops of `reduce_options`, for one
`(area, test_set)` pair: compute `test_idx`, compare its length with
`self.dimensions[0] - len(test_set)`, and on success subtract `test_set`
from every listed cell in order. -/
def reduceStep (side : ℕ) (g : List (Finset ℕ)) (area : List ℕ) (s : Finset ℕ) :
    List (Finset ℕ) :=
  if stepFires side g area s then
    (testIdxOf g area s).foldl (fun g2 j => g2.set j (g2.getD j ∅ \ s)) g
  else g

/-- `SudokuGrid.reduce_options`: iterate the step over all areas (outer
loop) and all table subsets (inner loop). -/
def reduce_options (G : Grid) : Grid :=
  { G with grid := G.areas.foldl (fun g area =>
      G.subsets.foldl (fun g2 s => reduceStep G.side g2 area s) g) G.grid }

/-- `sum([len(x) for x in self.grid])`. -/
def sumSizes (g : List (Finset ℕ)) : ℕ := (g.map Finset.card).sum

/-- Fuel-based rendering of the `while True` loop of `SudokuGrid.simplify`:
run `reduce_options`, stop as soon as a pass leaves the total candidate
count unchanged.  `simplifyFuel_eq_of_lt` below shows that any fuel above
`sumSizes G.grid` gives the same result, so `simplify` computes exactly
the limit of the unbounded Python loop. -/
def simplifyFuel : ℕ → Grid → Grid
  | 0, G => G
  | fuel + 1, G =>
    let G2 := reduce_options G
    if sumSizes G2.grid = sumSizes G.grid then G2 else simplifyFuel fuel G2

/-- `SudokuGrid.simplify`. -/
def simplify (G : Grid) : Grid := simplifyFuel (sumSizes G.grid + 1) G

/-- Number of `reduce_options` passes the `simplify` loop performs. -/
def simplifyPassesFuel : ℕ → Grid → ℕ
  | 0, _ => 0
  | fuel + 1, G =>
    let G2 := reduce_options G
    if sumSizes G2.grid = sumSizes G.grid then 1 else 1 + simplifyPassesFuel fuel G2

/-- Number of passes of `simplify` (with the same sufficient fuel). -/
def simplifyPasses (G : Grid) : ℕ := simplifyPassesFuel (sumSizes G.grid + 1) G

/-- `for i in range(len(self.grid.grid)): new_grid.grid[i] = self.grid.grid[i].copy()`. -/
def copyCells (src dst : List (Finset ℕ)) : List (Finset ℕ) :=
  (List.range src.length).foldl (fun g i => g.set i (src.getD i ∅)) dst

/-- The trial grid built inside `SudokuSolver.solve` for one lookahead:
`new_grid = SudokuGrid()` — the *default* 3×3 constructor, whatever the
live grid's shape — and then the live cells are copied in one by one. -/
def mkTrial (live : Grid) : Grid :=
  let base := mkGrid 3 3 none
  { base with grid := copyCells live.grid base.grid }

/-- The `good_set` computed by `solve` for the unresolved cell at flat
index `idx`: the values `v` of the live cell whose trial grid — the
default-shape clone with `{v}` assigned at `(row, col)` via the trial's
own `set_values` — simplifies to a valid grid. -/
def surviving (G : Grid) (idx : ℕ) : Finset ℕ :=
  (G.grid.getD idx ∅).filter (fun v =>
    let row := idx / G.side
    let col := idx % G.side
    is_valid (simplify (set_values (mkTrial G) row col {v})) = true)

/-- `all(self.grid.defined)`, the guard of the `while` loop of `solve`. -/
def allDefined (G : Grid) : Bool := (defined G).all id

/-- One iteration of the `while not all(...)` loop of `SudokuSolver.solve`:
for each flat index in order, if the cell is unresolved, replace it by its
surviving set and run `simplify` on the live grid. -/
def solveBody (G : Grid) : Grid :=
  (List.range G.grid.length).foldl (fun g idx =>
    if (defined g).getD idx false = true then g
    else
      let row := idx / g.side
      let col := idx % g.side
      simplify (set_values g row col (surviving g idx))) G

example : get_subset 1 = {9} := by decide
example : get_subset 5 = {7, 9} := by decide
example : get_subset 511 = Finset.Icc 1 9 := by decide
example : (subsetsTable 4).all (fun s => decide (s ⊆ Finset.Icc 6 9)) = true := by decide
example : (mkGrid 1 1 none).areas = [[0], [0], [0]] := by decide

/-! ### Elementary list lemmas -/

theorem getD_empty_of_le {g : List (Finset ℕ)} {j : ℕ} (h : g.length ≤ j) :
    g.getD j ∅ = ∅ := by
  simp [List.getD_eq_getElem?_getD, List.getElem?_eq_none h]

theorem getD_set_self {g : List (Finset ℕ)} {j : ℕ} {x : Finset ℕ} (h : j < g.length) :
    (g.set j x).getD j ∅ = x := by
  simp [List.getD_eq_getElem?_getD, List.getElem?_set_self h]

theorem getD_set_ne {g : List (Finset ℕ)} {i j : ℕ} {x : Finset ℕ} (h : i ≠ j) :
    (g.set i x).getD j ∅ = g.getD j ∅ := by
  simp [List.getD_eq_getElem?_getD, List.getElem?_set_ne h]

/-- Effect of one `self.grid[j] -= test_set` assignment on any cell. -/
theorem getD_set_sdiff (g : List (Finset ℕ)) (a : ℕ) (s : Finset ℕ) (j : ℕ) :
    (g.set a (g.getD a ∅ \ s)).getD j ∅ =
      if j = a then g.getD j ∅ \ s else g.getD j ∅ := by
  by_cases hj : j = a
  · subst hj
    by_cases hlen : j < g.length
    · simp [List.getD_eq_getElem?_getD, List.getElem?_set_self hlen]
    · push_neg at hlen
      simp [List.set_eq_of_length_le hlen, List.getD_eq_getElem?_getD,
        List.getElem?_eq_none hlen]
  · simp [List.getD_eq_getElem?_getD, List.getElem?_set_ne (Ne.symm hj), if_neg hj]

/-- Effect of the whole removal loop `for j in test_idx: self.grid[j] -= test_set`. -/
theorem foldl_sdiff_getD (s : Finset ℕ) :
    ∀ (l : List ℕ) (g : List (Finset ℕ)) (j : ℕ),
      (l.foldl (fun g2 k => g2.set k (g2.getD k ∅ \ s)) g).getD j ∅ =
        if j ∈ l then g.getD j ∅ \ s else g.getD j ∅ := by
  intro l
  induction l with
  | nil => simp
  | cons a t ih =>
    intro g j
    rw [List.foldl_cons, ih]
    rw [getD_set_sdiff]
    by_cases hja : j = a <;> by_cases hjt : j ∈ t <;>
      simp [hja, hjt, Finset.sdiff_idem]

theorem foldl_sdiff_length (s : Finset ℕ) (l : List ℕ) (g : List (Finset ℕ)) :
    (l.foldl (fun g2 k => g2.set k (g2.getD k ∅ \ s)) g).length = g.length := by
  induction l generalizing g with
  | nil => rfl
  | cons a t ih => rw [List.foldl_cons, ih, List.length_set]

/-! ### Cell-level characterization of `reduceStep` -/

theorem reduceStep_getD (side : ℕ) (g : List (Finset ℕ)) (area : List ℕ)
    (s : Finset ℕ) (j : ℕ) :
    (reduceStep side g area s).getD j ∅ =
      if stepFires side g area s ∧ j ∈ testIdxOf g area s
      then g.getD j ∅ \ s else g.getD j ∅ := by
  unfold reduceStep
  by_cases hf : stepFires side g area s
  · rw [if_pos hf, foldl_sdiff_getD]
    by_cases hj : j ∈ testIdxOf g area s <;> simp [hf, hj]
  · rw [if_neg hf]
    simp [hf]

theorem reduceStep_length (side : ℕ) (g : List (Finset ℕ)) (area : List ℕ)
    (s : Finset ℕ) : (reduceStep side g area s).length = g.length := by
  unfold reduceStep
  split
  · exact foldl_sdiff_length s _ g
  · rfl

theorem reduceStep_getD_subset (side : ℕ) (g : List (Finset ℕ)) (area : List ℕ)
    (s : Finset ℕ) (j : ℕ) :
    (reduceStep side g area s).getD j ∅ ⊆ g.getD j ∅ := by
  rw [reduceStep_getD]
  split
  · exact Finset.sdiff_subset
  · exact subset_rfl

/-! ### Monotone narrowing -/

/-- Pointwise narrowing order on candidate-set lists: same length,
every cell a subset of what it was. -/
def cellwiseLE (g g' : List (Finset ℕ)) : Prop :=
  g.length = g'.length ∧ ∀ j, g.getD j ∅ ⊆ g'.getD j ∅

theorem cellwiseLE_refl (g : List (Finset ℕ)) : cellwiseLE g g :=
  ⟨rfl, fun _ => subset_rfl⟩

theorem cellwiseLE_trans {g1 g2 g3 : List (Finset ℕ)}
    (h12 : cellwiseLE g1 g2) (h23 : cellwiseLE g2 g3) : cellwiseLE g1 g3 :=
  ⟨h12.1.trans h23.1, fun j => (h12.2 j).trans (h23.2 j)⟩

theorem cellwiseLE_antisymm {g g' : List (Finset ℕ)}
    (h : cellwiseLE g g') (h' : cellwiseLE g' g) : g = g' := by
  apply List.ext_getElem? (fun n => ?_)
  rcases Nat.lt_or_ge n g.length with hn | hn
  · have hn' : n < g'.length := h.1 ▸ hn
    rw [List.getElem?_eq_getElem hn, List.getElem?_eq_getElem hn']
    have e1 : g.getD n ∅ = g[n] := by
      simp [List.getD_eq_getElem?_getD, List.getElem?_eq_getElem hn]
    have e2 : g'.getD n ∅ = g'[n] := by
      simp [List.getD_eq_getElem?_getD, List.getElem?_eq_getElem hn']
    have := subset_antisymm (h.2 n) (h'.2 n)
    rw [e1, e2] at this
    rw [this]
  · rw [List.getElem?_eq_none hn, List.getElem?_eq_none (h.1 ▸ hn)]

theorem reduceStep_cellwiseLE (side : ℕ) (g : List (Finset ℕ)) (area : List ℕ)
    (s : Finset ℕ) : cellwiseLE (reduceStep side g area s) g :=
  ⟨reduceStep_length side g area s, reduceStep_getD_subset side g area s⟩

/-- Folding any family of cellwise-shrinking steps shrinks cellwise. -/
theorem foldl_cellwiseLE {α : Type} (f : List (Finset ℕ) → α → List (Finset ℕ))
    (hf : ∀ g a, cellwiseLE (f g a) g) :
    ∀ (l : List α) (g : List (Finset ℕ)), cellwiseLE (l.foldl f g) g := by
  intro l
  induction l with
  | nil => exact fun g => cellwiseLE_refl g
  | cons a t ih =>
    intro g
    exact cellwiseLE_trans (ih (f g a)) (hf g a)

theorem reduce_options_cellwiseLE (G : Grid) :
    cellwiseLE (reduce_options G).grid G.grid := by
  unfold reduce_options
  exact foldl_cellwiseLE _
    (fun g A => foldl_cellwiseLE _ (fun g2 s => reduceStep_cellwiseLE G.side g2 A s) _ g) _ _

theorem reduce_options_side (G : Grid) : (reduce_options G).side = G.side := rfl

theorem reduce_options_areas (G : Grid) : (reduce_options G).areas = G.areas := rfl

theorem reduce_options_subsets (G : Grid) : (reduce_options G).subsets = G.subsets := rfl

/-! ### Candidate-count sums -/

theorem sumSizes_eq_sum_range (g : List (Finset ℕ)) :
    sumSizes g = ∑ j ∈ Finset.range g.length, (g.getD j ∅).card := by
  induction g with
  | nil => simp [sumSizes]
  | cons a t ih =>
    have : ∀ j : ℕ, ((a :: t).getD (j + 1) ∅) = t.getD j ∅ := fun j => rfl
    rw [List.length_cons, Finset.sum_range_succ']
    simp only [this]
    rw [← ih]
    simp [sumSizes]
    omega

theorem sumSizes_le_of_cellwiseLE {g g' : List (Finset ℕ)} (h : cellwiseLE g g') :
    sumSizes g ≤ sumSizes g' := by
  rw [sumSizes_eq_sum_range, sumSizes_eq_sum_range, h.1]
  exact Finset.sum_le_sum (fun j _ => Finset.card_le_card (h.2 j))

theorem cellwiseLE_eq_of_sum_eq {g g' : List (Finset ℕ)} (h : cellwiseLE g g')
    (hsum : sumSizes g = sumSizes g') : g = g' := by
  apply cellwiseLE_antisymm h
  refine ⟨h.1.symm, fun j => ?_⟩
  rcases Nat.lt_or_ge j g.length with hj | hj
  · have hcard : ∀ i ∈ Finset.range g.length, (g.getD i ∅).card = (g'.getD i ∅).card := by
      rw [← Finset.sum_eq_sum_iff_of_le (fun i _ => Finset.card_le_card (h.2 i))]
      rw [← sumSizes_eq_sum_range]
      rw [h.1, ← sumSizes_eq_sum_range, hsum]
    have := Finset.eq_of_subset_of_card_le (h.2 j)
      (le_of_eq (hcard j (Finset.mem_range.2 hj)).symm)
    rw [this]
  · rw [getD_empty_of_le hj, getD_empty_of_le (h.1 ▸ hj : g'.length ≤ j)]

theorem sumSizes_reduce_le (G : Grid) :
    sumSizes (reduce_options G).grid ≤ sumSizes G.grid :=
  sumSizes_le_of_cellwiseLE (reduce_options_cellwiseLE G)

/-- If a fold of cellwise-shrinking steps returns its input unchanged, then
every individual step taken at that input is the identity. -/
theorem foldl_steps_eq_self {α : Type} (f : List (Finset ℕ) → α → List (Finset ℕ))
    (hf : ∀ g a, cellwiseLE (f g a) g) :
    ∀ (l : List α) (g : List (Finset ℕ)), l.foldl f g = g → ∀ a ∈ l, f g a = g := by
  intro l
  induction l with
  | nil => intro g _ a ha; cases ha
  | cons a t ih =>
    intro g hfix b hb
    have h1 : cellwiseLE (t.foldl f (f g a)) (f g a) := foldl_cellwiseLE f hf t (f g a)
    rw [List.foldl_cons] at hfix
    rw [hfix] at h1
    have hfa : f g a = g := cellwiseLE_antisymm (hf g a) h1
    rcases List.mem_cons.1 hb with rfl | hbt
    · exact hfa
    · rw [hfa] at hfix
      exact ih g hfix b hbt

/-- Conversely, if every step at `g` is the identity, the fold is. -/
theorem foldl_eq_self_of_steps {α : Type} (f : List (Finset ℕ) → α → List (Finset ℕ))
    (g : List (Finset ℕ)) (l : List α) (h : ∀ a ∈ l, f g a = g) :
    l.foldl f g = g := by
  induction l with
  | nil => rfl
  | cons a t ih =>
    simp only [List.foldl_cons, h a (List.mem_cons_self a t)]
    exact ih (fun b hb => h b (List.mem_cons_of_mem a hb))

/-- A grid is untouched by `reduce_options` exactly when every single
`(area, test_set)` step leaves it untouched. -/
theorem reduce_options_fix_iff (G : Grid) :
    reduce_options G = G ↔
      ∀ A ∈ G.areas, ∀ s ∈ G.subsets, reduceStep G.side G.grid A s = G.grid := by
  constructor
  · intro hfix A hA s hs
    have hgrids : G.areas.foldl (fun g area =>
        G.subsets.foldl (fun g2 s => reduceStep G.side g2 area s) g) G.grid = G.grid :=
      congrArg Grid.grid hfix
    have houter := foldl_steps_eq_self _
      (fun g A => foldl_cellwiseLE _ (fun g2 s => reduceStep_cellwiseLE G.side g2 A s) _ g)
      G.areas G.grid hgrids A hA
    exact foldl_steps_eq_self _ (fun g2 s => reduceStep_cellwiseLE G.side g2 A s)
      G.subsets G.grid houter s hs
  · intro h
    have : G.areas.foldl (fun g area =>
        G.subsets.foldl (fun g2 s => reduceStep G.side g2 area s) g) G.grid = G.grid :=
      foldl_eq_self_of_steps _ _ _
        (fun A hA => foldl_eq_self_of_steps _ _ _ (fun s hs => h A hA s hs))
    show Grid.mk G.side _ G.areas G.subsets = G
    rw [this]

theorem reduce_options_eq_of_sum_eq {G : Grid}
    (h : sumSizes (reduce_options G).grid = sumSizes G.grid) : reduce_options G = G := by
  have hg : (reduce_options G).grid = G.grid :=
    cellwiseLE_eq_of_sum_eq (reduce_options_cellwiseLE G) h
  show Grid.mk G.side (reduce_options G).grid G.areas G.subsets = G
  rw [hg]

/-! ### The `simplify` loop -/

theorem simplifyFuel_side (fuel : ℕ) (G : Grid) : (simplifyFuel fuel G).side = G.side := by
  induction fuel generalizing G with
  | zero => rfl
  | succ fuel ih =>
    show (if _ then reduce_options G else simplifyFuel fuel (reduce_options G)).side = G.side
    split
    · rfl
    · exact ih (reduce_options G)

theorem simplifyFuel_areas (fuel : ℕ) (G : Grid) :
    (simplifyFuel fuel G).areas = G.areas := by
  induction fuel generalizing G with
  | zero => rfl
  | succ fuel ih =>
    show (if _ then reduce_options G else simplifyFuel fuel (reduce_options G)).areas = G.areas
    split
    · rfl
    · exact ih (reduce_options G)

theorem simplifyFuel_subsets (fuel : ℕ) (G : Grid) :
    (simplifyFuel fuel G).subsets = G.subsets := by
  induction fuel generalizing G with
  | zero => rfl
  | succ fuel ih =>
    show (if _ then reduce_options G else simplifyFuel fuel (reduce_options G)).subsets
      = G.subsets
    split
    · rfl
    · exact ih (reduce_options G)

theorem simplifyFuel_cellwiseLE (fuel : ℕ) (G : Grid) :
    cellwiseLE (simplifyFuel fuel G).grid G.grid := by
  induction fuel generalizing G with
  | zero => exact cellwiseLE_refl G.grid
  | succ fuel ih =>
    show cellwiseLE
      (if _ then reduce_options G else simplifyFuel fuel (reduce_options G)).grid G.grid
    split
    · exact reduce_options_cellwiseLE G
    · exact cellwiseLE_trans (ih (reduce_options G)) (reduce_options_cellwiseLE G)

/-- With sufficient fuel, the state `simplifyFuel` stops at is a true
fixpoint of `reduce_options`: the loop exits only when a pass keeps the
candidate-count sum, and a sum-preserving pass is the identity. -/
theorem simplifyFuel_fix (fuel : ℕ) :
    ∀ G : Grid, sumSizes G.grid < fuel →
      reduce_options (simplifyFuel fuel G) = simplifyFuel fuel G := by
  induction fuel with
  | zero => intro G h; cases Nat.not_lt_zero _ h
  | succ fuel ih =>
    intro G h
    show reduce_options (if _ then reduce_options G else simplifyFuel fuel (reduce_options G))
      = if _ then reduce_options G else simplifyFuel fuel (reduce_options G)
    split
    · next hsum =>
      have hfg : reduce_options G = G := reduce_options_eq_of_sum_eq hsum
      rw [hfg]
      exact hfg
    · next hsum =>
      apply ih
      have hle := sumSizes_reduce_le G
      omega

/-- Fuel irrelevance: any two sufficient fuels give the same result, so
`simplify` computes exactly the limit of the unbounded Python loop. -/
theorem simplifyFuel_eq_of_lt (fuel : ℕ) :
    ∀ (fuel' : ℕ) (G : Grid), sumSizes G.grid < fuel → sumSizes G.grid < fuel' →
      simplifyFuel fuel G = simplifyFuel fuel' G := by
  induction fuel with
  | zero => intro fuel' G h _; cases Nat.not_lt_zero _ h
  | succ fuel ih =>
    intro fuel' G h h'
    cases fuel' with
    | zero => cases Nat.not_lt_zero _ h'
    | succ fuel' =>
      show (if _ then reduce_options G else simplifyFuel fuel (reduce_options G))
        = if _ then reduce_options G else simplifyFuel fuel' (reduce_options G)
      split
      · rfl
      · next hsum =>
        have hlt : sumSizes (reduce_options G).grid < sumSizes G.grid :=
          lt_of_le_of_ne (sumSizes_reduce_le G) hsum
        exact ih fuel' (reduce_options G) (by omega) (by omega)

theorem simplify_fix (G : Grid) : reduce_options (simplify G) = simplify G :=
  simplifyFuel_fix (sumSizes G.grid + 1) G (Nat.lt_succ_self _)

theorem simplify_cellwiseLE (G : Grid) : cellwiseLE (simplify G).grid G.grid :=
  simplifyFuel_cellwiseLE _ G

theorem simplify_side (G : Grid) : (simplify G).side = G.side := simplifyFuel_side _ G

theorem simplify_length (G : Grid) : (simplify G).grid.length = G.grid.length :=
  (simplify_cellwiseLE G).1

/-- Passes bound: the loop always stops within `sumSizes + 1` passes. -/
theorem simplifyPassesFuel_le (fuel : ℕ) :
    ∀ G : Grid, simplifyPassesFuel fuel G ≤ sumSizes G.grid + 1 := by
  induction fuel with
  | zero => intro G; exact Nat.zero_le _
  | succ fuel ih =>
    intro G
    show (if _ then 1 else 1 + simplifyPassesFuel fuel (reduce_options G)) ≤ _
    split
    · omega
    · next hsum =>
      have hlt : sumSizes (reduce_options G).grid < sumSizes G.grid :=
        lt_of_le_of_ne (sumSizes_reduce_le G) hsum
      have h2 : simplifyPassesFuel fuel (reduce_options G) ≤ sumSizes G.grid :=
        le_trans (ih (reduce_options G)) hlt
      calc 1 + simplifyPassesFuel fuel (reduce_options G)
          = simplifyPassesFuel fuel (reduce_options G) + 1 := Nat.add_comm _ _
        _ ≤ sumSizes G.grid + 1 := Nat.add_le_add_right h2 1

/-! ### Claim C7: idempotence of `simplify` -/

/-- C7: `simplify()` is idempotent: for every grid, calling `simplify()`
twice in succession leaves exactly the same cell candidate sets as calling
it once; the state reached by `simplify()` is a fixpoint of
`reduce_options` (see `simplify_fix`). -/
theorem C7_simplify_idempotent (G : Grid) : simplify (simplify G) = simplify G := by
  have hfix := simplify_fix G
  show (if sumSizes (reduce_options (simplify G)).grid = sumSizes (simplify G).grid
      then reduce_options (simplify G)
      else simplifyFuel (sumSizes (simplify G).grid) (reduce_options (simplify G)))
    = simplify G
  rw [hfix]
  simp

/-! ### Claim C5: monotone narrowing and the pass bound -/

/-- The grid with a single cell, that cell's candidate set emptied through
`set_values`: its candidate-count sum is `0`, yet `simplify` still performs
one (idle) pass. -/
def emptyCellGrid : Grid := set_values (mkGrid 1 1 none) 0 0 ∅

/-- C5, counterexample to the stated pass bound: on `emptyCellGrid` the
initial sum of candidate-set sizes is `0`, but the `simplify()` loop always
runs at least one `reduce_options` pass before it can observe that the sum
is stable, so it performs `1 > 0` passes. -/
theorem C5_counterexample :
    simplifyPasses emptyCellGrid = 1 ∧ sumSizes emptyCellGrid.grid = 0 ∧
      ¬ (simplifyPasses emptyCellGrid ≤ sumSizes emptyCellGrid.grid) := by
  refine ⟨by decide, by decide, by decide⟩

/-- C5 (amended): a call to `reduce_options` never enlarges any cell's
candidate set, the sum of candidate-set sizes never increases, and
`simplify()` terminates after at most `sum + 1` passes (one more than the
initial sum, the final pass being the one that observes stability). -/
theorem C5_monotone_narrowing (G : Grid) :
    (∀ j : ℕ, (reduce_options G).grid.getD j ∅ ⊆ G.grid.getD j ∅) ∧
      sumSizes (reduce_options G).grid ≤ sumSizes G.grid ∧
      simplifyPasses G ≤ sumSizes G.grid + 1 :=
  ⟨(reduce_options_cellwiseLE G).2, sumSizes_reduce_le G, simplifyPassesFuel_le _ G⟩

/-! ### The value-subset table for side 9 -/

theorem sum_range_two_pow (n : ℕ) : ∑ e ∈ Finset.range n, 2 ^ e = 2 ^ n - 1 := by
  induction n with
  | zero => simp
  | succ n ih =>
    rw [Finset.sum_range_succ, ih, pow_succ]
    have : 1 ≤ 2 ^ n := Nat.one_le_two_pow
    omega

/-- The binary expansion of a sum of distinct powers of two: bit `b` of
`∑ e ∈ E, 2 ^ e` is set exactly when `b ∈ E`. -/
theorem testBit_sum_two_pow (E : Finset ℕ) (b : ℕ) :
    (∑ e ∈ E, 2 ^ e).testBit b = decide (b ∈ E) := by
  induction E using Finset.strongInductionOn with
  | _ E ih =>
    rcases E.eq_empty_or_nonempty with rfl | hne
    · simp
    · set a := E.max' hne with ha
      have hmem : a ∈ E := E.max'_mem hne
      have hins : insert a (E.erase a) = E := Finset.insert_erase hmem
      have hsum : ∑ e ∈ E, 2 ^ e = 2 ^ a + ∑ e ∈ E.erase a, 2 ^ e := by
        rw [← hins, Finset.sum_insert (E.not_mem_erase a), Finset.insert_erase hmem]
      have hlt : ∑ e ∈ E.erase a, 2 ^ e < 2 ^ a := by
        have hsub : E.erase a ⊆ Finset.range a := by
          intro e he
          have hle : e ≤ a := E.le_max' e (Finset.mem_of_mem_erase he)
          have hnea : e ≠ a := Finset.ne_of_mem_erase he
          exact Finset.mem_range.2 (lt_of_le_of_ne hle hnea)
        have h2 : ∑ e ∈ E.erase a, 2 ^ e ≤ ∑ e ∈ Finset.range a, 2 ^ e :=
          Finset.sum_le_sum_of_subset hsub
        rw [sum_range_two_pow] at h2
        have h1 : 1 ≤ 2 ^ a := Nat.one_le_two_pow
        omega
      rcases lt_trichotomy b a with hb | rfl | hb
      · rw [hsum, Nat.testBit_two_pow_add_gt hb,
          ih (E.erase a) (Finset.erase_ssubset hmem)]
        refine decide_eq_decide.2 ?_
        rw [Finset.mem_erase]
        constructor
        · exact fun h => h.2
        · exact fun h => ⟨by omega, h⟩
      · rw [hsum, Nat.testBit_two_pow_add_eq, Nat.testBit_lt_two_pow hlt]
        simp [hmem]
      · have htot : ∑ e ∈ E, 2 ^ e < 2 ^ b := by
          have h2 : 2 ^ (a + 1) ≤ 2 ^ b := Nat.pow_le_pow_right (by omega) hb
          have h1 : 2 ^ (a + 1) = 2 ^ a + 2 ^ a := by rw [pow_succ]; omega
          omega
        rw [Nat.testBit_lt_two_pow htot]
        have : b ∉ E := fun hbE => absurd (E.le_max' b hbE) (by omega)
        simp [this]

/-- `log2F` with sufficient fuel satisfies the defining bounds of the
binary logarithm. -/
theorem log2F_bounds (fuel : ℕ) :
    ∀ n : ℕ, 1 ≤ n → n ≤ fuel →
      2 ^ log2F fuel n ≤ n ∧ n < 2 ^ (log2F fuel n + 1) := by
  induction fuel with
  | zero => intro n h1 h2; omega
  | succ fuel ih =>
    intro n h1 h2
    show 2 ^ (if 2 ≤ n then log2F fuel (n / 2) + 1 else 0) ≤ n ∧
      n < 2 ^ ((if 2 ≤ n then log2F fuel (n / 2) + 1 else 0) + 1)
    by_cases hn : 2 ≤ n
    · rw [if_pos hn]
      have := ih (n / 2) (by omega) (by omega)
      rw [pow_succ, pow_succ]
      omega
    · rw [if_neg hn]
      have hn1 : n = 1 := by omega
      subst hn1
      decide

/-- The integer `i = Σ_{w ∈ T} 2^(9-w)` whose 9-wide binary string has a
`'1'` exactly at the characters encoding the values of `T`. -/
def encodeSubset (T : Finset ℕ) : ℕ := ∑ w ∈ T, 2 ^ (9 - w)

theorem get_subset_encode (T : Finset ℕ) (hT : T ⊆ Finset.Icc 1 9) (hne : T.Nonempty) :
    get_subset (encodeSubset T) = T ∧ 1 ≤ encodeSubset T ∧ encodeSubset T ≤ 511 := by
  have hw : ∀ w ∈ T, 1 ≤ w ∧ w ≤ 9 := fun w hwT => Finset.mem_Icc.1 (hT hwT)
  set E := T.image (fun w => 9 - w) with hE
  have hinj : ∀ x ∈ T, ∀ y ∈ T, 9 - x = 9 - y → x = y := by
    intro x hx y hy hxy
    have := hw x hx
    have := hw y hy
    omega
  have hsumE : encodeSubset T = ∑ e ∈ E, 2 ^ e := by
    unfold encodeSubset
    rw [hE, Finset.sum_image hinj]
  have hEr : E ⊆ Finset.range 9 := by
    intro e he
    rcases Finset.mem_image.1 he with ⟨w, hwT, rfl⟩
    have := hw w hwT
    exact Finset.mem_range.2 (by omega)
  have hub : encodeSubset T ≤ 511 := by
    rw [hsumE]
    have h2 : ∑ e ∈ E, 2 ^ e ≤ ∑ e ∈ Finset.range 9, 2 ^ e :=
      Finset.sum_le_sum_of_subset hEr
    rw [sum_range_two_pow] at h2
    omega
  have hlb : 1 ≤ encodeSubset T := by
    rcases hne with ⟨w, hwT⟩
    have h1 : 2 ^ (9 - w) ≤ encodeSubset T :=
      Finset.single_le_sum (f := fun w => 2 ^ (9 - w)) (fun _ _ => Nat.zero_le _) hwT
    have : 1 ≤ 2 ^ (9 - w) := Nat.one_le_two_pow
    omega
  refine ⟨?_, hlb, hub⟩
  have hbit : bitLen (encodeSubset T) ≤ 9 := by
    have hch := log2F_bounds (encodeSubset T) (encodeSubset T) hlb (le_refl _)
    have : log2F (encodeSubset T) (encodeSubset T) ≤ 8 := by
      by_contra hgt
      push_neg at hgt
      have : (2 : ℕ) ^ 9 ≤ 2 ^ log2F (encodeSubset T) (encodeSubset T) :=
        Nat.pow_le_pow_right (by omega) (by omega)
      omega
    unfold bitLen
    omega
  have hmax : max 9 (bitLen (encodeSubset T)) = 9 := Nat.max_eq_left hbit
  unfold get_subset
  rw [hmax]
  apply Finset.ext
  intro w
  rw [Finset.mem_filter]
  constructor
  · rintro ⟨hwIcc, hbitw⟩
    rw [hsumE, testBit_sum_two_pow] at hbitw
    have h9w : 9 - w ∈ E := of_decide_eq_true hbitw
    rcases Finset.mem_image.1 h9w with ⟨u, huT, hu⟩
    have := hw u huT
    have hwIcc' := Finset.mem_Icc.1 hwIcc
    have : u = w := by omega
    exact this ▸ huT
  · intro hwT
    refine ⟨hT hwT, ?_⟩
    rw [hsumE, testBit_sum_two_pow]
    exact decide_eq_true (Finset.mem_image_of_mem _ hwT)

/-- For a side-9 grid, the constructor's subset table enumerates exactly the
non-empty subsets of the value set `{1, …, 9}`. -/
theorem mem_subsetsTable_9_iff (T : Finset ℕ) :
    T ∈ subsetsTable 9 ↔ T.Nonempty ∧ T ⊆ Finset.Icc 1 9 := by
  constructor
  · intro hT
    rcases List.mem_map.1 hT with ⟨i, hi, rfl⟩
    revert hi
    have : ∀ i ∈ List.range' 1 (2 ^ 9 - 1), (get_subset i).Nonempty ∧
        get_subset i ⊆ Finset.Icc 1 9 := by decide
    exact fun hi => this i hi
  · rintro ⟨hne, hT⟩
    obtain ⟨heq, hlb, hub⟩ := get_subset_encode T hT hne
    refine List.mem_map.2 ⟨encodeSubset T, ?_, heq⟩
    have : encodeSubset T ∈ List.range' 1 511 ↔
        1 ≤ encodeSubset T ∧ encodeSubset T < 1 + 511 := by
      constructor
      · intro h
        have := List.mem_range'_1.1 h
        exact ⟨this.1, this.2⟩
      · intro h
        exact List.mem_range'_1.2 ⟨h.1, h.2⟩
    exact this.2 ⟨hlb, by omega⟩

/-! ### Claims C2 and C3: the subset-elimination rule -/

theorem simplify_eq_self_of_fix {G : Grid} (h : reduce_options G = G) : simplify G = G := by
  show (if sumSizes (reduce_options G).grid = sumSizes G.grid then reduce_options G
      else simplifyFuel (sumSizes G.grid) (reduce_options G)) = G
  rw [h]
  simp

/-- The 4×4 grid (m = n = 2) that is fully blank except cell (0,0) = {1}. -/
def blank4x4one : Grid := set_values (mkGrid 2 2 none) 0 0 {1}

/-- C2: the board of the spec's 4×4 scenario.  `get_subset` formats its key
with the hard-coded width-9 pattern `'{:9b}'`, so for `total = 4` the table
holds subsets of `{6, …, 9}` only; no candidate set of a 4×4 grid is ever
contained in such a test set, `reduce_options` never fires a removal, and
one `simplify()` pass removes nothing at all: value 1 survives in the row,
column, and region peers of cell (0,0) (flat indices 1, 4, 5). -/
theorem C2_simplify_removes_nothing :
    reduce_options blank4x4one = blank4x4one ∧
      simplify blank4x4one = blank4x4one ∧
      (1 : ℕ) ∈ (simplify blank4x4one).grid.getD 1 ∅ ∧
      (1 : ℕ) ∈ (simplify blank4x4one).grid.getD 4 ∅ ∧
      (1 : ℕ) ∈ (simplify blank4x4one).grid.getD 5 ∅ := by
  have hfix : reduce_options blank4x4one = blank4x4one :=
    (reduce_options_fix_iff blank4x4one).2 (by decide)
  have hs : simplify blank4x4one = blank4x4one := simplify_eq_self_of_fix hfix
  rw [hs]
  exact ⟨hfix, rfl, by decide, by decide, by decide⟩

/-- C3, counterexample: on `blank4x4one`, for the first row area and the
subset `S = {1}` of `{1..4}`, exactly `|S| = 1` cell of the area is confined
to `S` and cell 1 is not, yet a full call of `reduce_options` leaves value 1
in cell 1 — the rule the claim describes is not applied (the table never
enumerates `{1}` for side 4). -/
theorem C3_counterexample :
    (blank4x4one.areas.getD 0 []).countP
        (fun i => decide (blank4x4one.grid.getD i ∅ ⊆ ({1} : Finset ℕ)))
      = ({1} : Finset ℕ).card ∧
    ¬ (blank4x4one.grid.getD 1 ∅ ⊆ ({1} : Finset ℕ)) ∧
    reduce_options blank4x4one = blank4x4one ∧
    (1 : ℕ) ∈ (reduce_options blank4x4one).grid.getD 1 ∅ := by
  have hfix : reduce_options blank4x4one = blank4x4one :=
    (reduce_options_fix_iff blank4x4one).2 (by decide)
  refine ⟨by decide, by decide, hfix, ?_⟩
  rw [hfix]
  decide

theorem countP_filter_not (p : ℕ → Bool) (l : List ℕ) :
    (l.filter (fun a => ! p a)).length + l.countP p = l.length := by
  induction l with
  | nil => rfl
  | cons a t ih =>
    by_cases hp : p a <;>
      simp [List.countP_cons, hp, ih] <;> omega

/-- The code's complement test coincides with counting confined cells:
for an area of exactly `side` (listed) cells and a test set of at most
`side` values, `len(test_idx) == side - len(test_set)` holds iff exactly
`len(test_set)` cells of the area have candidate sets contained in the
test set. -/
theorem stepFires_iff_countP (side : ℕ) (g : List (Finset ℕ)) (A : List ℕ)
    (s : Finset ℕ) (hA : A.length = side) :
    stepFires side g A s ↔
      A.countP (fun i => decide (g.getD i ∅ ⊆ s)) = s.card := by
  have hcount := countP_filter_not (fun i => decide (g.getD i ∅ ⊆ s)) A
  unfold stepFires testIdxOf
  rw [hA] at hcount
  constructor
  · intro h
    omega
  · intro h
    omega

theorem mem_testIdxOf (g : List (Finset ℕ)) (A : List ℕ) (s : Finset ℕ) (j : ℕ) :
    j ∈ testIdxOf g A s ↔ j ∈ A ∧ ¬ (g.getD j ∅ ⊆ s) := by
  unfold testIdxOf
  simp [List.mem_filter]

/-- C3 (amended: for side-9 grids, whose table does enumerate every
non-empty subset of `{1..side}`): one `(area, test_set)` step of
`reduce_options` removes exactly the values of `S` from exactly the cells
of the area not confined to `S`, exactly when exactly `|S|` cells of the
area are confined to `S` — and the table iterated over consists precisely
of the non-empty subsets of `{1..9}`. -/
theorem C3_subset_elimination_rule (g : List (Finset ℕ)) (A : List ℕ)
    (s : Finset ℕ) (j : ℕ) (hA : A.length = 9) (hs : s ⊆ Finset.Icc 1 9) :
    ((reduceStep 9 g A s).getD j ∅ =
      if A.countP (fun i => decide (g.getD i ∅ ⊆ s)) = s.card
          ∧ j ∈ A ∧ ¬ (g.getD j ∅ ⊆ s)
        then g.getD j ∅ \ s else g.getD j ∅) ∧
    (∀ T : Finset ℕ, T ∈ subsetsTable 9 ↔ T.Nonempty ∧ T ⊆ Finset.Icc 1 9) := by
  refine ⟨?_, mem_subsetsTable_9_iff⟩
  rw [reduceStep_getD]
  refine if_congr ?_ rfl rfl
  rw [stepFires_iff_countP 9 g A s hA, mem_testIdxOf]

/-- Witness for `C3_subset_elimination_rule`: a side-9 area in which one
cell is pinned to `{1}`; the step strips value 1 from the not-confined
cell 1. -/
theorem C3_subset_elimination_rule_witness :
    ([0, 1, 2, 3, 4, 5, 6, 7, 8] : List ℕ).length = 9 ∧
    ({1} : Finset ℕ) ⊆ Finset.Icc 1 9 ∧
    (((reduceStep 9 ({1} :: List.replicate 8 (Finset.Icc 1 9))
          [0, 1, 2, 3, 4, 5, 6, 7, 8] {1}).getD 1 ∅ =
      if ([0, 1, 2, 3, 4, 5, 6, 7, 8] : List ℕ).countP
            (fun i => decide ((({1} : Finset ℕ) :: List.replicate 8 (Finset.Icc 1 9)).getD i ∅
              ⊆ ({1} : Finset ℕ))) = ({1} : Finset ℕ).card
          ∧ 1 ∈ ([0, 1, 2, 3, 4, 5, 6, 7, 8] : List ℕ)
          ∧ ¬ ((({1} : Finset ℕ) :: List.replicate 8 (Finset.Icc 1 9)).getD 1 ∅
              ⊆ ({1} : Finset ℕ))
        then (({1} : Finset ℕ) :: List.replicate 8 (Finset.Icc 1 9)).getD 1 ∅ \ {1}
        else (({1} : Finset ℕ) :: List.replicate 8 (Finset.Icc 1 9)).getD 1 ∅) ∧
    (∀ T : Finset ℕ, T ∈ subsetsTable 9 ↔ T.Nonempty ∧ T ⊆ Finset.Icc 1 9)) :=
  ⟨by decide, by decide,
    C3_subset_elimination_rule ({1} :: List.replicate 8 (Finset.Icc 1 9))
      [0, 1, 2, 3, 4, 5, 6, 7, 8] {1} 1 (by decide) (by decide)⟩

/-! ### Claim C4: soundness of elimination -/

/-- A complete assignment consistent with the grid: one value picked from
each cell's candidate set, every area receiving each of the `side` values
exactly once. -/
def isCompletion (G : Grid) (a : ℕ → ℕ) : Prop :=
  (∀ i < G.grid.length, a i ∈ G.grid.getD i ∅) ∧
    ∀ A ∈ G.areas, (A.map a).Perm (gridValues G.side)

/-- Well-formed areas, as every grid built by the constructor has them:
each area lists `side` distinct in-range flat indices. -/
def wfAreas (G : Grid) : Prop :=
  ∀ A ∈ G.areas, A.Nodup ∧ A.length = G.side ∧ ∀ i ∈ A, i < G.grid.length

instance (G : Grid) (a : ℕ → ℕ) : Decidable (isCompletion G a) := by
  unfold isCompletion; infer_instance

instance (G : Grid) : Decidable (wfAreas G) := by
  unfold wfAreas; infer_instance

/-- One `(area, test_set)` step never removes a value that some completion
of the current grid assigns: the counting argument.  If the step fires,
exactly `|S|` listed cells are confined to `S`; under a completion these
cells receive `|S|` pairwise different values inside `S`, hence all of `S`,
so no other cell of the area can receive a value of `S`. -/
theorem reduceStep_preserves_completion (side : ℕ) (g : List (Finset ℕ))
    (A : List ℕ) (s : Finset ℕ) (hlen : A.length = side)
    (hidx : ∀ i ∈ A, i < g.length)
    (a : ℕ → ℕ) (hmem : ∀ i < g.length, a i ∈ g.getD i ∅)
    (hperm : (A.map a).Perm (gridValues side)) :
    ∀ i < g.length, a i ∈ (reduceStep side g A s).getD i ∅ := by
  intro i hi
  rw [reduceStep_getD]
  split
  · next hcond =>
    obtain ⟨hf, hidxi⟩ := hcond
    rw [Finset.mem_sdiff]
    refine ⟨hmem i hi, fun hais => ?_⟩
    obtain ⟨hiA, hins⟩ := (mem_testIdxOf g A s i).1 hidxi
    have hcount : A.countP (fun k => decide (g.getD k ∅ ⊆ s)) = s.card :=
      (stepFires_iff_countP side g A s hlen).1 hf
    set conf := A.filter (fun k => decide (g.getD k ∅ ⊆ s)) with hconf
    have hconflen : conf.length = s.card := by
      rw [hconf, ← List.countP_eq_length_filter]
      exact hcount
    have hmapnd : (A.map a).Nodup :=
      (List.Perm.nodup_iff hperm).2 (List.nodup_range' 1 side)
    have hainj : ∀ x ∈ A, ∀ y ∈ A, a x = a y → x = y :=
      List.inj_on_of_nodup_map hmapnd
    have hconfnd : (conf.map a).Nodup :=
      List.Nodup.sublist (List.Sublist.map a (List.filter_sublist A)) hmapnd
    have hconfsub : (conf.map a).toFinset ⊆ s := by
      intro x hx
      rcases List.mem_map.1 (List.mem_toFinset.1 hx) with ⟨k, hk, rfl⟩
      obtain ⟨hkA, hks⟩ := List.mem_filter.1 hk
      exact (of_decide_eq_true hks) (hmem k (hidx k hkA))
    have hconffin : (conf.map a).toFinset = s := by
      apply Finset.eq_of_subset_of_card_le hconfsub
      rw [List.toFinset_card_of_nodup hconfnd, List.length_map, hconflen]
    have hmem2 : a i ∈ (conf.map a).toFinset := by rw [hconffin]; exact hais
    rcases List.mem_map.1 (List.mem_toFinset.1 hmem2) with ⟨k, hkconf, hk⟩
    obtain ⟨hkA, hks⟩ := List.mem_filter.1 hkconf
    have hkne : k ≠ i := by
      intro hki
      rw [hki] at hks
      exact hins (of_decide_eq_true hks)
    exact hkne (hainj k hkA i hiA hk)
  · exact hmem i hi

/-- Invariants preserved by every step of a fold are preserved by the fold. -/
theorem foldl_inv {α : Type} (P : List (Finset ℕ) → Prop)
    (f : List (Finset ℕ) → α → List (Finset ℕ)) :
    ∀ (l : List α) (g : List (Finset ℕ)),
      (∀ g' x, x ∈ l → P g' → P (f g' x)) → P g → P (l.foldl f g) := by
  intro l
  induction l with
  | nil => intro g _ hg; exact hg
  | cons x t ih =>
    intro g hstep hg
    exact ih (f g x) (fun g' y hy => hstep g' y (List.mem_cons_of_mem x hy))
      (hstep g x (List.mem_cons_self x t) hg)

/-- C4: elimination is sound.  For every grid with well-formed areas whose
cells draw from `{1..side}`: if one call of `reduce_options` removes value
`v` from cell `c`, then no completion of the pre-call grid — one value per
cell, every area a permutation of `{1..side}` — assigns `v` to `c`. -/
theorem C4_elimination_sound (G : Grid) (hwf : wfAreas G)
    (hcells : ∀ s ∈ G.grid, s ⊆ Finset.Icc 1 G.side)
    (c v : ℕ) (hv : v ∈ G.grid.getD c ∅)
    (hrem : v ∉ (reduce_options G).grid.getD c ∅)
    (a : ℕ → ℕ) (hc : isCompletion G a) : a c ≠ v := by
  have hstep : ∀ A ∈ G.areas, ∀ (g' : List (Finset ℕ)) (s : Finset ℕ),
      (g'.length = G.grid.length ∧ ∀ i < g'.length, a i ∈ g'.getD i ∅) →
      ((reduceStep G.side g' A s).length = G.grid.length ∧
        ∀ i < (reduceStep G.side g' A s).length, a i ∈ (reduceStep G.side g' A s).getD i ∅) := by
    intro A hA g' s hP
    obtain ⟨hnd', hlen', hidx'⟩ := hwf A hA
    constructor
    · rw [reduceStep_length]
      exact hP.1
    · intro i hi
      rw [reduceStep_length] at hi
      exact reduceStep_preserves_completion G.side g' A s hlen'
        (fun k hk => hP.1 ▸ hidx' k hk) a hP.2 (hc.2 A hA) i hi
  have hfold : (reduce_options G).grid.length = G.grid.length ∧
      ∀ i < (reduce_options G).grid.length, a i ∈ (reduce_options G).grid.getD i ∅ := by
    show (G.areas.foldl (fun g area =>
        G.subsets.foldl (fun g2 s => reduceStep G.side g2 area s) g) G.grid).length
        = G.grid.length ∧ _
    apply foldl_inv (fun g => g.length = G.grid.length ∧ ∀ i < g.length, a i ∈ g.getD i ∅)
    · intro g' A hA hP
      exact foldl_inv _ _ G.subsets g' (fun g2 s _ hP2 => hstep A hA g2 s hP2) hP
    · exact ⟨rfl, fun i hi => hc.1 i hi⟩
  have hclen : c < G.grid.length := by
    by_contra hge
    push_neg at hge
    rw [getD_empty_of_le hge] at hv
    cases hv
  intro hac
  apply hrem
  rw [← hac]
  exact hfold.2 c (hfold.1 ▸ hclen)

/-- A two-cell grid on which `reduce_options` performs a removal and which
admits a completion. -/
def soundDemoGrid : Grid :=
  { side := 2, grid := [{1}, {1, 2}], areas := [[0, 1]], subsets := [{1}] }

/-- The completion of `soundDemoGrid` assigning 1 to cell 0 and 2 to cell 1. -/
def soundDemoAssign : ℕ → ℕ := fun i => if i = 0 then 1 else 2

/-- Witness for `C4_elimination_sound`: on `soundDemoGrid`, `reduce_options`
removes value 1 from cell 1, and the completion indeed avoids it there. -/
theorem C4_elimination_sound_witness :
    wfAreas soundDemoGrid ∧
    (∀ s ∈ soundDemoGrid.grid, s ⊆ Finset.Icc 1 soundDemoGrid.side) ∧
    (1 : ℕ) ∈ soundDemoGrid.grid.getD 1 ∅ ∧
    (1 : ℕ) ∉ (reduce_options soundDemoGrid).grid.getD 1 ∅ ∧
    isCompletion soundDemoGrid soundDemoAssign ∧
    soundDemoAssign 1 ≠ 1 :=
  ⟨by decide, by decide, by decide, by decide, by decide,
    C4_elimination_sound soundDemoGrid (by decide) (by decide) 1 1 (by decide)
      (by decide) soundDemoAssign (by decide)⟩

/-! ### Claim C6: validity duality -/

theorem gridValues_toFinset (total : ℕ) :
    (gridValues total).toFinset = Finset.Icc 1 total := by
  ext x
  rw [List.mem_toFinset, gridValues, List.mem_range'_1, Finset.mem_Icc]
  omega

theorem mem_foldl_union (g : List (Finset ℕ)) (A : List ℕ) (x : ℕ) :
    ∀ acc : Finset ℕ,
      (x ∈ A.foldl (fun acc i => acc ∪ g.getD i ∅) acc ↔
        x ∈ acc ∨ ∃ i ∈ A, x ∈ g.getD i ∅) := by
  induction A with
  | nil => intro acc; simp
  | cons a t ih =>
    intro acc
    rw [List.foldl_cons, ih]
    simp only [Finset.mem_union, List.mem_cons]
    constructor
    · rintro ((hx | hx) | ⟨i, hi, hx⟩)
      · exact Or.inl hx
      · exact Or.inr ⟨a, Or.inl rfl, hx⟩
      · exact Or.inr ⟨i, Or.inr hi, hx⟩
    · rintro (hx | ⟨i, rfl | hi, hx⟩)
      · exact Or.inl (Or.inl hx)
      · exact Or.inl (Or.inr hx)
      · exact Or.inr ⟨i, hi, hx⟩

theorem getD_subset_Icc (G : Grid)
    (hcells : ∀ s ∈ G.grid, s ⊆ Finset.Icc 1 G.side) (i : ℕ) :
    G.grid.getD i ∅ ⊆ Finset.Icc 1 G.side := by
  rcases Nat.lt_or_ge i G.grid.length with hi | hi
  · have : G.grid.getD i ∅ = G.grid[i] := by
      simp [List.getD_eq_getElem?_getD, List.getElem?_eq_getElem hi]
    rw [this]
    exact hcells _ (List.getElem_mem hi)
  · rw [getD_empty_of_le hi]
    exact Finset.empty_subset _

theorem theValue_singleton (x : ℕ) : theValue {x} = x := by
  unfold theValue
  rw [Finset.sort_singleton]
  rfl

theorem eq_singleton_theValue_of_card_one {s : Finset ℕ} (h : s.card = 1) :
    s = {theValue s} := by
  rcases Finset.card_eq_one.1 h with ⟨x, rfl⟩
  rw [theValue_singleton]

theorem validate_area_true_iff (G : Grid) (A : List ℕ) :
    validate_area G A = true ↔
      (A.foldl (fun acc i => acc ∪ G.grid.getD i ∅) ∅ = (gridValues G.side).toFinset) ∧
      ((A.filter fun i => (G.grid.getD i ∅).card == 1).map
        (fun i => theValue (G.grid.getD i ∅))).Nodup := by
  unfold validate_area
  rw [Bool.and_eq_true, decide_eq_true_iff, decide_eq_true_iff]

/-- One area fails `validate_area` exactly when a value of `{1..side}` is
missing from the union of its candidate sets or two distinct resolved cells
of the area hold the same value (for in-range candidate sets and a
duplicate-free area listing). -/
theorem validate_area_false_iff (G : Grid) (A : List ℕ) (hnd : A.Nodup)
    (hcells : ∀ s ∈ G.grid, s ⊆ Finset.Icc 1 G.side) :
    validate_area G A = false ↔
      (∃ v ∈ Finset.Icc 1 G.side, ∀ i ∈ A, v ∉ G.grid.getD i ∅) ∨
      (∃ i ∈ A, ∃ j ∈ A, i ≠ j ∧ (G.grid.getD i ∅).card = 1 ∧
        G.grid.getD i ∅ = G.grid.getD j ∅) := by
  rw [Bool.eq_false_iff, Ne, validate_area_true_iff, gridValues_toFinset]
  rw [not_and_or]
  constructor
  · rintro (hunion | hdup)
    · left
      have hsub : A.foldl (fun acc i => acc ∪ G.grid.getD i ∅) ∅ ⊆ Finset.Icc 1 G.side := by
        intro x hx
        rcases (mem_foldl_union G.grid A x ∅).1 hx with hx | ⟨i, _, hx⟩
        · cases hx
        · exact getD_subset_Icc G hcells i hx
      have : ¬ (Finset.Icc 1 G.side ⊆ A.foldl (fun acc i => acc ∪ G.grid.getD i ∅) ∅) :=
        fun h => hunion (Finset.Subset.antisymm hsub h)
      rcases Finset.not_subset.1 this with ⟨v, hvIcc, hvU⟩
      refine ⟨v, hvIcc, fun i hi hvi => hvU ?_⟩
      exact (mem_foldl_union G.grid A v ∅).2 (Or.inr ⟨i, hi, hvi⟩)
    · right
      have hninj : ¬ (∀ x ∈ A.filter (fun i => (G.grid.getD i ∅).card == 1),
          ∀ y ∈ A.filter (fun i => (G.grid.getD i ∅).card == 1),
          theValue (G.grid.getD x ∅) = theValue (G.grid.getD y ∅) → x = y) := by
        intro hinjF
        exact hdup (List.Nodup.map_on hinjF (hnd.filter _))
      push_neg at hninj
      obtain ⟨x, hxF, y, hyF, hfeq, hxy⟩ := hninj
      obtain ⟨hxA, hxcard⟩ := List.mem_filter.1 hxF
      obtain ⟨hyA, hycard⟩ := List.mem_filter.1 hyF
      have hx1 : (G.grid.getD x ∅).card = 1 := by simpa using hxcard
      have hy1 : (G.grid.getD y ∅).card = 1 := by simpa using hycard
      refine ⟨x, hxA, y, hyA, hxy, hx1, ?_⟩
      rw [eq_singleton_theValue_of_card_one hx1, eq_singleton_theValue_of_card_one hy1,
        hfeq]
  · rintro (⟨v, hvIcc, hnone⟩ | ⟨i, hiA, j, hjA, hij, hcard, heq⟩)
    · left
      intro hU
      rw [← hU] at hvIcc
      rcases (mem_foldl_union G.grid A v ∅).1 hvIcc with hv | ⟨i, hi, hvi⟩
      · cases hv
      · exact hnone i hi hvi
    · right
      intro hNodup
      have hiF : i ∈ A.filter (fun k => (G.grid.getD k ∅).card == 1) :=
        List.mem_filter.2 ⟨hiA, by simpa using hcard⟩
      have hjF : j ∈ A.filter (fun k => (G.grid.getD k ∅).card == 1) :=
        List.mem_filter.2 ⟨hjA, by rw [show G.grid.getD j ∅ = G.grid.getD i ∅ from heq.symm]; simpa using hcard⟩
      exact hij (List.inj_on_of_nodup_map hNodup hiF hjF (by rw [heq]))

/-- C6 (amended): for grids with duplicate-free areas whose candidate sets
stay inside `{1..side}` (invariant I2), `is_valid` returns `False` iff some
area has a value of `{1..side}` absent from the union of its cells'
candidate sets or two distinct resolved cells holding the same value.
(Without the I2 restriction the code also reports `False` whenever an
out-of-range candidate inflates an area's union, see
`C6_counterexample`.) -/
theorem C6_validity_iff (G : Grid) (hnd : ∀ A ∈ G.areas, A.Nodup)
    (hcells : ∀ s ∈ G.grid, s ⊆ Finset.Icc 1 G.side) :
    is_valid G = false ↔
      ∃ A ∈ G.areas,
        (∃ v ∈ Finset.Icc 1 G.side, ∀ i ∈ A, v ∉ G.grid.getD i ∅) ∨
        (∃ i ∈ A, ∃ j ∈ A, i ≠ j ∧ (G.grid.getD i ∅).card = 1 ∧
          G.grid.getD i ∅ = G.grid.getD j ∅) := by
  have h1 : is_valid G = false ↔ ∃ A ∈ G.areas, validate_area G A = false := by
    unfold is_valid
    rw [Bool.eq_false_iff]
    simp only [Ne, List.all_eq_true, not_forall]
    constructor
    · rintro ⟨A, hA, hfalse⟩
      exact ⟨A, hA, Bool.not_eq_true _ ▸ hfalse⟩
    · rintro ⟨A, hA, hfalse⟩
      exact ⟨A, hA, by rw [hfalse]; exact Bool.false_ne_true⟩
  rw [h1]
  constructor
  · rintro ⟨A, hA, hfalse⟩
    exact ⟨A, hA, (validate_area_false_iff G A (hnd A hA) hcells).1 hfalse⟩
  · rintro ⟨A, hA, hprop⟩
    exact ⟨A, hA, (validate_area_false_iff G A (hnd A hA) hcells).2 hprop⟩

/-- The 4×4 grid whose cell (0,0) holds the out-of-range candidate set
`{1, …, 5}`. -/
def overfull4x4 : Grid := set_values (mkGrid 2 2 none) 0 0 (Finset.Icc 1 5)

/-- C6, counterexample to the claim as stated over all grids: on
`overfull4x4`, `is_valid` returns `False` (the first row's union `{1..5}`
differs from `set(self.values) = {1..4}`), yet no area misses a value of
`{1..4}` and no two resolved cells agree — the claimed equivalence fails
once a candidate set leaves `{1..side}`. -/
theorem C6_counterexample :
    is_valid overfull4x4 = false ∧
    ¬ (∃ A ∈ overfull4x4.areas,
        (∃ v ∈ Finset.Icc 1 overfull4x4.side, ∀ i ∈ A, v ∉ overfull4x4.grid.getD i ∅) ∨
        (∃ i ∈ A, ∃ j ∈ A, i ≠ j ∧ (overfull4x4.grid.getD i ∅).card = 1 ∧
          overfull4x4.grid.getD i ∅ = overfull4x4.grid.getD j ∅)) :=
  ⟨by decide, by decide⟩

/-- Witness for `C6_validity_iff` at a concrete two-cell grid. -/
theorem C6_validity_iff_witness :
    (∀ A ∈ soundDemoGrid.areas, A.Nodup) ∧
    (∀ s ∈ soundDemoGrid.grid, s ⊆ Finset.Icc 1 soundDemoGrid.side) ∧
    (is_valid soundDemoGrid = false ↔
      ∃ A ∈ soundDemoGrid.areas,
        (∃ v ∈ Finset.Icc 1 soundDemoGrid.side, ∀ i ∈ A, v ∉ soundDemoGrid.grid.getD i ∅) ∨
        (∃ i ∈ A, ∃ j ∈ A, i ≠ j ∧ (soundDemoGrid.grid.getD i ∅).card = 1 ∧
          soundDemoGrid.grid.getD i ∅ = soundDemoGrid.grid.getD j ∅)) :=
  ⟨by decide, by decide, C6_validity_iff soundDemoGrid (by decide) (by decide)⟩

/-! ### Claim C8: the three area families partition the board -/

/-- The region family the constructor installs: the supplied segments,
flattened, or the default block tiling. -/
def regionAreasOf (m n : ℕ) (segments : Option (List (List (ℕ × ℕ)))) : List (List ℕ) :=
  match segments with
  | some segs => segAreas (m * n) segs
  | none => blockAreas m n

/-- A family of `total` groups of `total` distinct flat indices each whose
concatenation is a permutation of `{0 .. total² − 1}` — i.e. an exact
partition of the board into groups of size `total`. -/
def partitionsBoard (F : List (List ℕ)) (total : ℕ) : Prop :=
  F.length = total ∧ (∀ A ∈ F, A.length = total ∧ A.Nodup) ∧
    F.flatten.Perm (List.range (total ^ 2))

instance (F : List (List ℕ)) (total : ℕ) : Decidable (partitionsBoard F total) := by
  unfold partitionsBoard; infer_instance

theorem perm_range_of_nodup (L : List ℕ) (N : ℕ) (hnd : L.Nodup)
    (hlt : ∀ x ∈ L, x < N) (hlen : L.length = N) : L.Perm (List.range N) := by
  have hsub : L ⊆ List.range N := fun x hx => List.mem_range.2 (hlt x hx)
  exact (List.subperm_of_subset hnd hsub).perm_of_length_le
    (by rw [hlen, List.length_range])

theorem decompUnique {b q r q' r' : ℕ} (hb : 0 < b) (hr : r < b) (hr' : r' < b)
    (h : b * q + r = b * q' + r') : q = q' ∧ r = r' := by
  have h1 : (b * q + r) / b = q := by
    rw [Nat.mul_add_div hb, Nat.div_eq_of_lt hr]
    omega
  have h2 : (b * q' + r') / b = q' := by
    rw [Nat.mul_add_div hb, Nat.div_eq_of_lt hr']
    omega
  have hq : q = q' := by rw [← h1, ← h2, h]
  subst hq
  exact ⟨rfl, by omega⟩

theorem mem_flatMap_range {α : Type} {A : ℕ} {g : ℕ → List α} {x : α} :
    x ∈ (List.range A).flatMap g ↔ ∃ a, a < A ∧ x ∈ g a := by
  rw [List.mem_flatMap]
  constructor
  · rintro ⟨a, ha, hx⟩
    exact ⟨a, List.mem_range.1 ha, hx⟩
  · rintro ⟨a, ha, hx⟩
    exact ⟨a, List.mem_range.2 ha, hx⟩

theorem nodup_flatMap_range {α : Type} (A : ℕ) (g : ℕ → List α)
    (hnd : ∀ a, a < A → (g a).Nodup)
    (hdis : ∀ a a', a < A → a' < A → a ≠ a' → ∀ x, x ∈ g a → x ∈ g a' → False) :
    ((List.range A).flatMap g).Nodup := by
  induction A with
  | zero => simp
  | succ A ih =>
    rw [List.range_succ, List.flatMap_append]
    rw [List.nodup_append]
    refine ⟨ih (fun a ha => hnd a (by omega))
      (fun a a' ha ha' => hdis a a' (by omega) (by omega)), ?_, ?_⟩
    · simp only [List.flatMap_cons, List.flatMap_nil, List.append_nil]
      exact hnd A (Nat.lt_succ_self A)
    · intro x hx hx'
      rcases mem_flatMap_range.1 hx with ⟨a, ha, hxa⟩
      simp only [List.flatMap_cons, List.flatMap_nil, List.append_nil] at hx'
      exact hdis a A (by omega) (Nat.lt_succ_self A) (by omega) x hxa hx'

theorem length_flatMap_const {α : Type} (A B : ℕ) (g : ℕ → List α)
    (h : ∀ a, a < A → (g a).length = B) :
    ((List.range A).flatMap g).length = A * B := by
  induction A with
  | zero => simp
  | succ A ih =>
    rw [List.range_succ, List.flatMap_append, List.length_append,
      ih (fun a ha => h a (by omega))]
    simp only [List.flatMap_cons, List.flatMap_nil, List.append_nil]
    rw [h A (Nat.lt_succ_self A), Nat.succ_mul]

theorem rowAreas_partitions (total : ℕ) (ht : 0 < total) :
    partitionsBoard (rowAreas total) total := by
  refine ⟨by simp [rowAreas], ?_, ?_⟩
  · intro A hA
    rcases List.mem_map.1 hA with ⟨i, _, rfl⟩
    exact ⟨by simp, List.Nodup.map (fun a b hab => by omega) (List.nodup_range total)⟩
  · rw [rowAreas, ← List.flatMap_def]
    apply perm_range_of_nodup
    · apply nodup_flatMap_range
      · intro i _
        exact List.Nodup.map (fun a b hab => by omega) (List.nodup_range total)
      · intro a a' _ _ hne x hx hx'
        rcases List.mem_map.1 hx with ⟨j, hj, rfl⟩
        rcases List.mem_map.1 hx' with ⟨j', hj', hEq⟩
        exact hne (decompUnique ht (List.mem_range.1 hj') (List.mem_range.1 hj) hEq).1.symm
    · intro x hx
      rcases mem_flatMap_range.1 hx with ⟨a, ha, hxa⟩
      rcases List.mem_map.1 hxa with ⟨j, hj, rfl⟩
      have hj' := List.mem_range.1 hj
      have h1 : total * (a + 1) ≤ total * total := Nat.mul_le_mul_left total (by omega)
      rw [Nat.mul_succ] at h1
      have h2 : total ^ 2 = total * total := pow_two total
      omega
    · rw [length_flatMap_const total total _ (fun a _ => by simp), pow_two]

theorem colAreas_partitions (total : ℕ) (ht : 0 < total) :
    partitionsBoard (colAreas total) total := by
  refine ⟨by simp [colAreas], ?_, ?_⟩
  · intro A hA
    rcases List.mem_map.1 hA with ⟨j, hjr, rfl⟩
    refine ⟨by simp, ?_⟩
    apply List.Nodup.map _ (List.nodup_range total)
    intro a b hab
    exact ((decompUnique ht (List.mem_range.1 hjr) (List.mem_range.1 hjr) hab).1 : a = b)
  · rw [colAreas, ← List.flatMap_def]
    apply perm_range_of_nodup
    · apply nodup_flatMap_range
      · intro j hj
        apply List.Nodup.map _ (List.nodup_range total)
        intro a b hab
        exact ((decompUnique ht hj hj hab).1 : a = b)
      · intro a a' ha ha' hne x hx hx'
        rcases List.mem_map.1 hx with ⟨i, hi, rfl⟩
        rcases List.mem_map.1 hx' with ⟨i', hi', hEq⟩
        exact hne (decompUnique ht ha' ha hEq).2.symm
    · intro x hx
      rcases mem_flatMap_range.1 hx with ⟨a, ha, hxa⟩
      rcases List.mem_map.1 hxa with ⟨i, hi, rfl⟩
      have hi' := List.mem_range.1 hi
      have h1 : total * (i + 1) ≤ total * total := Nat.mul_le_mul_left total (by omega)
      rw [Nat.mul_succ] at h1
      have h2 : total ^ 2 = total * total := pow_two total
      omega
    · rw [length_flatMap_const total total _ (fun a _ => by simp), pow_two]

theorem blockIndex_eq (m n i j r s : ℕ) :
    (m * n) * m * i + n * j + (m * n) * r + s = (m * n) * (m * i + r) + (n * j + s) := by
  ring

theorem blockOuter_lt {m n i r : ℕ} (hi : i < n) (hr : r < m) : m * i + r < m * n := by
  have h1 : m * (i + 1) ≤ m * n := Nat.mul_le_mul_left m (by omega)
  rw [Nat.mul_succ] at h1
  omega

theorem blockInner_lt {m n j s : ℕ} (hj : j < m) (hs : s < n) : n * j + s < m * n := by
  have h1 : n * (j + 1) ≤ n * m := Nat.mul_le_mul_left n (by omega)
  rw [Nat.mul_succ, Nat.mul_comm n m] at h1
  omega

theorem blockIndex_inj {m n : ℕ} {i j r s i' j' r' s' : ℕ}
    (hi : i < n) (hj : j < m) (hr : r < m) (hs : s < n)
    (hi' : i' < n) (hj' : j' < m) (hr' : r' < m) (hs' : s' < n)
    (h : (m * n) * m * i + n * j + (m * n) * r + s
       = (m * n) * m * i' + n * j' + (m * n) * r' + s') :
    i = i' ∧ j = j' ∧ r = r' ∧ s = s' := by
  have hm : 0 < m := by omega
  have hn : 0 < n := by omega
  rw [blockIndex_eq, blockIndex_eq] at h
  obtain ⟨hQ, hP⟩ := decompUnique (Nat.mul_pos hm hn)
    (blockInner_lt hj hs) (blockInner_lt hj' hs') h
  obtain ⟨hi2, hr2⟩ := decompUnique hm hr hr' hQ
  obtain ⟨hj2, hs2⟩ := decompUnique hn hs hs' hP
  exact ⟨hi2, hj2, hr2, hs2⟩

theorem blockIndex_lt {m n i j r s : ℕ} (hi : i < n) (hj : j < m) (hr : r < m) (hs : s < n) :
    (m * n) * m * i + n * j + (m * n) * r + s < (m * n) ^ 2 := by
  rw [blockIndex_eq, pow_two]
  have hq := blockOuter_lt hi hr
  have hp := blockInner_lt hj hs
  have h1 : (m * n) * (m * i + r + 1) ≤ (m * n) * (m * n) :=
    Nat.mul_le_mul_left (m * n) (by omega)
  rw [Nat.mul_succ] at h1
  omega

theorem mem_blockCells {m n i j x : ℕ} :
    x ∈ blockCells m n i j ↔
      ∃ r, r < m ∧ ∃ s, s < n ∧ x = (m * n) * m * i + n * j + (m * n) * r + s := by
  unfold blockCells
  rw [mem_flatMap_range]
  constructor
  · rintro ⟨r, hr, hx⟩
    rcases List.mem_map.1 hx with ⟨s, hs, rfl⟩
    exact ⟨r, hr, s, List.mem_range.1 hs, rfl⟩
  · rintro ⟨r, hr, s, hs, rfl⟩
    exact ⟨r, hr, List.mem_map.2 ⟨s, List.mem_range.2 hs, rfl⟩⟩

theorem blockCells_nodup {m n i j : ℕ} (hi : i < n) (hj : j < m) :
    (blockCells m n i j).Nodup := by
  apply nodup_flatMap_range
  · intro r _
    exact List.Nodup.map (fun a b hab => by omega) (List.nodup_range n)
  · intro r r' hr hr' hne x hx hx'
    rcases List.mem_map.1 hx with ⟨s, hs, rfl⟩
    rcases List.mem_map.1 hx' with ⟨s', hs', hEq⟩
    exact hne (blockIndex_inj hi hj hr' (List.mem_range.1 hs') hi hj hr
      (List.mem_range.1 hs) hEq).2.2.1.symm

theorem blockCells_length (m n i j : ℕ) : (blockCells m n i j).length = m * n :=
  length_flatMap_const m n _ (fun r _ => by simp)

theorem flatten_flatMap_lists (l : List ℕ) (g : ℕ → List (List ℕ)) :
    (l.flatMap g).flatten = l.flatMap (fun a => (g a).flatten) := by
  induction l with
  | nil => rfl
  | cons a t ih => rw [List.flatMap_cons, List.flatten_append, ih, List.flatMap_cons]

theorem blockAreas_partitions (m n : ℕ) (hm : 0 < m) (hn : 0 < n) :
    partitionsBoard (blockAreas m n) (m * n) := by
  refine ⟨?_, ?_, ?_⟩
  · rw [blockAreas]
    have h := length_flatMap_const n m
      (fun i => List.map (fun j => blockCells m n i j) (List.range m)) (fun i _ => by simp)
    exact h.trans (Nat.mul_comm n m)
  · intro A hA
    rw [blockAreas] at hA
    rcases mem_flatMap_range.1 hA with ⟨i, hi, hAi⟩
    rcases List.mem_map.1 hAi with ⟨j, hj, rfl⟩
    exact ⟨blockCells_length m n i j, blockCells_nodup hi (List.mem_range.1 hj)⟩
  · rw [blockAreas, flatten_flatMap_lists]
    have hflat : ∀ i : ℕ, ((List.range m).map (fun j => blockCells m n i j)).flatten
        = (List.range m).flatMap (fun j => blockCells m n i j) :=
      fun i => (List.flatMap_def _ _).symm
    apply perm_range_of_nodup
    · apply nodup_flatMap_range
      · intro i hi
        rw [hflat]
        apply nodup_flatMap_range
        · intro j hj
          exact blockCells_nodup hi hj
        · intro j j' hjlt hj'lt hne x hx hx'
          rcases mem_blockCells.1 hx with ⟨r, hr, s, hs, rfl⟩
          rcases mem_blockCells.1 hx' with ⟨r', hr', s', hs', hEq⟩
          exact hne (blockIndex_inj hi hjlt hr hs hi hj'lt hr' hs' hEq).2.1
      · intro i i' hilt hi'lt hne x hx hx'
        rw [hflat] at hx hx'
        rcases mem_flatMap_range.1 hx with ⟨j, hj, hxj⟩
        rcases mem_flatMap_range.1 hx' with ⟨j', hj', hxj'⟩
        rcases mem_blockCells.1 hxj with ⟨r, hr, s, hs, rfl⟩
        rcases mem_blockCells.1 hxj' with ⟨r', hr', s', hs', hEq⟩
        exact hne (blockIndex_inj hilt hj hr hs hi'lt hj' hr' hs' hEq).1
    · intro x hx
      rcases mem_flatMap_range.1 hx with ⟨i, hi, hxi⟩
      rw [hflat] at hxi
      rcases mem_flatMap_range.1 hxi with ⟨j, hj, hxj⟩
      rcases mem_blockCells.1 hxj with ⟨r, hr, s, hs, rfl⟩
      exact blockIndex_lt hi hj hr hs
    · rw [length_flatMap_const n (m * (m * n)) _ (fun i hi => ?_), pow_two]
      · ring
      · rw [hflat, length_flatMap_const m (m * n) _ (fun j _ => blockCells_length m n i j)]

/-- The conditions the constructor's asserts check on a supplied `segments`
argument: exactly `total` segments of exactly `total` cells each, and the
flattened indices, sorted, are exactly `range(total ** 2)` — i.e. their
concatenation is a permutation of `{0 .. total² − 1}`. -/
def acceptedSegs (total : ℕ) (segments : Option (List (List (ℕ × ℕ)))) : Prop :=
  match segments with
  | none => True
  | some segs =>
      segs.length = total ∧ (∀ s ∈ segs, s.length = total) ∧
        (segAreas total segs).flatten.Perm (List.range (total ^ 2))

instance (total : ℕ) (segments : Option (List (List (ℕ × ℕ)))) :
    Decidable (acceptedSegs total segments) := by
  unfold acceptedSegs
  cases segments <;> infer_instance

theorem segAreas_partitions (total : ℕ) (segs : List (List (ℕ × ℕ)))
    (hlen : segs.length = total) (heach : ∀ s ∈ segs, s.length = total)
    (hperm : (segAreas total segs).flatten.Perm (List.range (total ^ 2))) :
    partitionsBoard (segAreas total segs) total := by
  refine ⟨by rw [segAreas, List.length_map, hlen], ?_, hperm⟩
  intro A hA
  rcases List.mem_map.1 hA with ⟨s, hs, rfl⟩
  refine ⟨by rw [List.length_map, heach s hs], ?_⟩
  have hjoin : (segAreas total segs).flatten.Nodup :=
    (List.Perm.nodup_iff hperm).2 (List.nodup_range _)
  exact List.Nodup.sublist
    (List.sublist_flatten_of_mem (List.mem_map.2 ⟨s, hs, rfl⟩)) hjoin

/-- C8: for every `m, n ≥ 1` and every region argument the constructor
accepts (default blocks, or supplied segments passing the asserts), each of
the three area families — rows, columns, regions — consists of `side`
groups of `side` distinct flat indices whose concatenation is a permutation
of `{0 .. side² − 1}`, i.e. each family independently partitions the board;
and these are exactly the families `__init__` installs, in order. -/
theorem C8_area_partitions (m n : ℕ) (hm : 1 ≤ m) (hn : 1 ≤ n)
    (segments : Option (List (List (ℕ × ℕ)))) (hseg : acceptedSegs (m * n) segments) :
    partitionsBoard (rowAreas (m * n)) (m * n) ∧
    partitionsBoard (colAreas (m * n)) (m * n) ∧
    partitionsBoard (regionAreasOf m n segments) (m * n) ∧
    (mkGrid m n segments).areas =
      rowAreas (m * n) ++ colAreas (m * n) ++ regionAreasOf m n segments := by
  have ht : 0 < m * n := Nat.mul_pos hm hn
  refine ⟨rowAreas_partitions _ ht, colAreas_partitions _ ht, ?_, ?_⟩
  · cases segments with
    | none => exact blockAreas_partitions m n hm hn
    | some segs =>
      obtain ⟨h1, h2, h3⟩ := hseg
      exact segAreas_partitions (m * n) segs h1 h2 h3
  · cases segments <;> rfl

/-- A custom exact partition of the 4×4 board: its four columns, as
(row, col) coordinate pairs. -/
def demoSegs : List (List (ℕ × ℕ)) :=
  [[(0, 0), (1, 0), (2, 0), (3, 0)],
   [(0, 1), (1, 1), (2, 1), (3, 1)],
   [(0, 2), (1, 2), (2, 2), (3, 2)],
   [(0, 3), (1, 3), (2, 3), (3, 3)]]

/-- Witness for `C8_area_partitions`: `m = n = 2` with the supplied
column partition `demoSegs`. -/
theorem C8_area_partitions_witness :
    (1 ≤ 2 ∧ 1 ≤ 2 ∧ acceptedSegs (2 * 2) (some demoSegs)) ∧
    (partitionsBoard (rowAreas (2 * 2)) (2 * 2) ∧
      partitionsBoard (colAreas (2 * 2)) (2 * 2) ∧
      partitionsBoard (regionAreasOf 2 2 (some demoSegs)) (2 * 2) ∧
      (mkGrid 2 2 (some demoSegs)).areas =
        rowAreas (2 * 2) ++ colAreas (2 * 2) ++ regionAreasOf 2 2 (some demoSegs)) :=
  ⟨⟨by decide, by decide, by decide⟩,
    C8_area_partitions 2 2 (by decide) (by decide) (some demoSegs) (by decide)⟩

/-! ### Claim C9: empty candidate sets and validity -/

theorem countP_lt {p q : ℕ → Bool} {l : List ℕ}
    (himp : ∀ a ∈ l, p a = true → q a = true)
    (x : ℕ) (hx : x ∈ l) (hqx : q x = true) (hpx : ¬ p x = true) :
    l.countP p < l.countP q := by
  induction l with
  | nil => cases hx
  | cons a t ih =>
    rw [List.countP_cons, List.countP_cons]
    rcases List.mem_cons.1 hx with rfl | hxt
    · have hmono : t.countP p ≤ t.countP q :=
        List.countP_mono_left (fun b hb => himp b (List.mem_cons_of_mem _ hb))
      rw [if_pos hqx, if_neg hpx]
      omega
    · have hlt := ih (fun b hb h => himp b (List.mem_cons_of_mem _ hb) h) hxt
      by_cases hpa : p a = true
      · rw [if_pos hpa, if_pos (himp a (List.mem_cons_self a t) hpa)]
        omega
      · rw [if_neg hpa]
        by_cases hqa : q a = true
        · rw [if_pos hqa]; omega
        · rw [if_neg hqa]; omega

/-- At a fixpoint of `reduce_options` on a side-9 grid, every `(area, S)`
step that fires has already done its work: each cell of the area that is
not confined to `S` is disjoint from `S`. -/
theorem fix_step_disjoint (G : Grid) (A : List ℕ) (hA : A ∈ G.areas)
    (hside : G.side = 9) (hsub : G.subsets = subsetsTable 9) (hlen : A.length = 9)
    (hfix : reduce_options G = G) (s : Finset ℕ) (hsne : s.Nonempty)
    (hsIcc : s ⊆ Finset.Icc 1 9)
    (hcnt : A.countP (fun i => decide (G.grid.getD i ∅ ⊆ s)) = s.card) :
    ∀ j ∈ A, ¬ (G.grid.getD j ∅ ⊆ s) → Disjoint (G.grid.getD j ∅) s := by
  have hmem : s ∈ G.subsets := by
    rw [hsub]
    exact (mem_subsetsTable_9_iff s).2 ⟨hsne, hsIcc⟩
  have hstep : reduceStep G.side G.grid A s = G.grid :=
    (reduce_options_fix_iff G).1 hfix A hA s hmem
  intro j hj hnsub
  have hfires : stepFires G.side G.grid A s := by
    rw [hside]
    exact (stepFires_iff_countP 9 G.grid A s hlen).2 hcnt
  have hj' : (reduceStep G.side G.grid A s).getD j ∅ = G.grid.getD j ∅ := by rw [hstep]
  rw [reduceStep_getD, if_pos ⟨hfires, (mem_testIdxOf G.grid A s j).2 ⟨hj, hnsub⟩⟩] at hj'
  exact Finset.sdiff_eq_self_iff_disjoint.1 hj'

/-- If no proper subset of `S` is tight (confined-count = size), then —
thanks to the empty cell, which is confined in every test set — every
proper subset has confined-count at least its size plus one. -/
theorem conf_ge_of_no_tight (G : Grid) (A : List ℕ) (c : ℕ) (hcA : c ∈ A)
    (hempty : G.grid.getD c ∅ = ∅) (S : Finset ℕ)
    (hno : ∀ s' : Finset ℕ, s' ⊆ S → s' ≠ S →
      A.countP (fun i => decide (G.grid.getD i ∅ ⊆ s')) ≠ s'.card) :
    ∀ s' : Finset ℕ, s' ⊆ S → s' ≠ S →
      s'.card + 1 ≤ A.countP (fun i => decide (G.grid.getD i ∅ ⊆ s')) := by
  intro s'
  induction s' using Finset.strongInductionOn with
  | _ s' ih =>
    intro hsub hne
    have hpos : 0 < A.countP (fun i => decide (G.grid.getD i ∅ ⊆ s')) := by
      refine List.countP_pos_iff.2 ⟨c, hcA, ?_⟩
      rw [hempty]
      exact decide_eq_true (Finset.empty_subset s')
    rcases s'.eq_empty_or_nonempty with rfl | hne'
    · simpa using hpos
    · obtain ⟨v, hv⟩ := hne'
      have herase_ne : s'.erase v ≠ S := by
        intro hEq
        exact (Finset.not_mem_erase v s') ((hEq ▸ hsub) hv)
      have herase := ih (s'.erase v) (Finset.erase_ssubset hv)
        ((Finset.erase_subset v s').trans hsub) herase_ne
      have hmono : A.countP (fun i => decide (G.grid.getD i ∅ ⊆ s'.erase v)) ≤
          A.countP (fun i => decide (G.grid.getD i ∅ ⊆ s')) := by
        refine List.countP_mono_left (fun i _ h => ?_)
        exact decide_eq_true ((of_decide_eq_true h).trans (Finset.erase_subset v s'))
      have hne2 := hno s' hsub hne
      have hcard := Finset.card_erase_of_mem hv
      have hcpos : 1 ≤ s'.card := Finset.card_pos.2 ⟨v, hv⟩
      omega

/-- The descent: on a side-9 fixpoint grid whose area `A` contains an empty
cell, no subset `S` of the value set can be tight and covered (every value
of `S` in some `S`-confined cell of `A`). -/
theorem tight_set_false (G : Grid) (A : List ℕ) (hA : A ∈ G.areas)
    (hside : G.side = 9) (hsub : G.subsets = subsetsTable 9) (hlen : A.length = 9)
    (hfix : reduce_options G = G) (c : ℕ) (hcA : c ∈ A)
    (hempty : G.grid.getD c ∅ = ∅) :
    ∀ S : Finset ℕ, S ⊆ Finset.Icc 1 9 →
      A.countP (fun i => decide (G.grid.getD i ∅ ⊆ S)) = S.card →
      (∀ v ∈ S, ∃ i ∈ A, G.grid.getD i ∅ ⊆ S ∧ v ∈ G.grid.getD i ∅) → False := by
  intro S
  induction S using Finset.strongInductionOn with
  | _ S ih =>
    intro hSIcc hSconf hScov
    have hpos : 0 < A.countP (fun i => decide (G.grid.getD i ∅ ⊆ S)) := by
      refine List.countP_pos_iff.2 ⟨c, hcA, ?_⟩
      rw [hempty]
      exact decide_eq_true (Finset.empty_subset S)
    have hSne : S.Nonempty := Finset.card_pos.1 (by omega)
    by_cases hex : ∃ S' : Finset ℕ, S' ⊆ S ∧ S' ≠ S ∧
        A.countP (fun i => decide (G.grid.getD i ∅ ⊆ S')) = S'.card
    · obtain ⟨S', hsub', hne', hconf'⟩ := hex
      have hS'pos : 0 < A.countP (fun i => decide (G.grid.getD i ∅ ⊆ S')) := by
        refine List.countP_pos_iff.2 ⟨c, hcA, ?_⟩
        rw [hempty]
        exact decide_eq_true (Finset.empty_subset S')
      have hS'ne : S'.Nonempty := Finset.card_pos.1 (by omega)
      have hdis := fix_step_disjoint G A hA hside hsub hlen hfix S' hS'ne
        (hsub'.trans hSIcc) hconf'
      refine ih S' (Finset.ssubset_iff_subset_ne.2 ⟨hsub', hne'⟩)
        (hsub'.trans hSIcc) hconf' ?_
      intro v hv
      obtain ⟨i, hiA, hisub, hiv⟩ := hScov v (hsub' hv)
      by_cases hcase : G.grid.getD i ∅ ⊆ S'
      · exact ⟨i, hiA, hcase, hiv⟩
      · exact absurd hv (Finset.disjoint_left.1 (hdis i hiA hcase) hiv)
    · push_neg at hex
      have hchain := conf_ge_of_no_tight G A c hcA hempty S
        (fun s' h1 h2 => hex s' h1 h2)
      obtain ⟨v, hv⟩ := hSne
      obtain ⟨i0, hi0A, hi0sub, hi0v⟩ := hScov v hv
      have herase_ne : S.erase v ≠ S := by
        intro hEq
        rw [← hEq] at hv
        exact Finset.not_mem_erase v S hv
      have h1 := hchain (S.erase v) (Finset.erase_subset v S) herase_ne
      rw [Finset.card_erase_of_mem hv] at h1
      have h2 : A.countP (fun i => decide (G.grid.getD i ∅ ⊆ S.erase v)) <
          A.countP (fun i => decide (G.grid.getD i ∅ ⊆ S)) := by
        refine countP_lt (fun a _ h => ?_) i0 hi0A (decide_eq_true hi0sub) ?_
        · exact decide_eq_true ((of_decide_eq_true h).trans (Finset.erase_subset v S))
        · intro hconf
          exact (Finset.not_mem_erase v S) ((of_decide_eq_true hconf) hi0v)
      have hScard : 1 ≤ S.card := Finset.card_pos.2 ⟨v, hv⟩
      omega

/-- C9 (amended): for a side-9 grid — real subset table, an area of nine
in-range cells — that is a fixpoint of `reduce_options` (in particular any
trial grid after `simplify()`), an empty candidate set in that area forces
`is_valid` to return `False`.  (Stated over one area; the grid is invalid
as soon as one of its areas is.) -/
theorem C9_empty_cell_fixpoint_invalid (G : Grid) (hside : G.side = 9)
    (hsub : G.subsets = subsetsTable 9) (A : List ℕ) (hA : A ∈ G.areas)
    (hlen : A.length = 9)
    (hcells : ∀ i ∈ A, G.grid.getD i ∅ ⊆ Finset.Icc 1 9)
    (hfix : reduce_options G = G) (c : ℕ) (hcA : c ∈ A)
    (hempty : G.grid.getD c ∅ = ∅) :
    is_valid G = false := by
  have harea : validate_area G A = false := by
    rw [Bool.eq_false_iff, Ne]
    intro htrue
    obtain ⟨hU, _⟩ := (validate_area_true_iff G A).1 htrue
    rw [gridValues_toFinset, hside] at hU
    have hcov : ∀ v ∈ Finset.Icc 1 9, ∃ i ∈ A,
        G.grid.getD i ∅ ⊆ Finset.Icc 1 9 ∧ v ∈ G.grid.getD i ∅ := by
      intro v hv
      rw [← hU] at hv
      rcases (mem_foldl_union G.grid A v ∅).1 hv with h | ⟨i, hi, hvi⟩
      · cases h
      · exact ⟨i, hi, hcells i hi, hvi⟩
    have hconfV : A.countP (fun i => decide (G.grid.getD i ∅ ⊆ Finset.Icc 1 9))
        = (Finset.Icc 1 9).card := by
      rw [List.countP_eq_length.2 (fun i hi => decide_eq_true (hcells i hi)), hlen]
      decide
    exact tight_set_false G A hA hside hsub hlen hfix c hcA hempty
      (Finset.Icc 1 9) subset_rfl hconfV hcov
  rw [Bool.eq_false_iff, Ne]
  unfold is_valid
  intro hall
  have h2 := List.all_eq_true.1 hall A hA
  rw [harea] at h2
  cases h2

/-- The standard 9×9 grid, blank except that cell (0,0) was emptied. -/
def hole9 : Grid := set_values (mkGrid 3 3 none) 0 0 ∅

/-- The 4×4 grid, blank except that cell (0,0) was emptied. -/
def hole4 : Grid := set_values (mkGrid 2 2 none) 0 0 ∅

/-- C9, counterexample to the claim as stated: a grid with an empty cell on
which `is_valid` still returns `True` — the empty cell's areas keep their
full unions thanks to the other cells.  The 9×9 instance refutes the bare
claim; the 4×4 instance is even a fixpoint of `reduce_options` (because of
the width-9 `get_subset` bug its table never tests subsets of `{1..4}`), so
`simplify()` leaves it untouched and the parenthetical "after simplify()"
reading fails as well for side ≠ 9. -/
theorem C9_counterexample :
    (hole9.grid.getD 0 ∅ = ∅ ∧ is_valid hole9 = true) ∧
    (hole4.grid.getD 0 ∅ = ∅ ∧ reduce_options hole4 = hole4 ∧
      simplify hole4 = hole4 ∧ is_valid hole4 = true) := by
  have hfix4 : reduce_options hole4 = hole4 := (reduce_options_fix_iff hole4).2 (by decide)
  exact ⟨⟨by decide, by decide⟩,
    ⟨by decide, hfix4, simplify_eq_self_of_fix hfix4, by decide⟩⟩

/-- A single side-9 area of nine emptied cells over the real subset table:
a fixpoint of `reduce_options` with an empty cell. -/
def oneAreaEmpty9 : Grid :=
  { side := 9, grid := List.replicate 9 ∅, areas := [List.range 9],
    subsets := subsetsTable 9 }

/-- Witness for `C9_empty_cell_fixpoint_invalid` on `oneAreaEmpty9`. -/
theorem C9_empty_cell_fixpoint_invalid_witness :
    (oneAreaEmpty9.side = 9 ∧ oneAreaEmpty9.subsets = subsetsTable 9 ∧
      List.range 9 ∈ oneAreaEmpty9.areas ∧ (List.range 9).length = 9 ∧
      (∀ i ∈ List.range 9, oneAreaEmpty9.grid.getD i ∅ ⊆ Finset.Icc 1 9) ∧
      reduce_options oneAreaEmpty9 = oneAreaEmpty9 ∧
      0 ∈ List.range 9 ∧ oneAreaEmpty9.grid.getD 0 ∅ = ∅) ∧
    is_valid oneAreaEmpty9 = false :=
  ⟨⟨rfl, rfl, by decide, by decide, by decide,
      (reduce_options_fix_iff oneAreaEmpty9).2 (by decide), by decide, by decide⟩,
    C9_empty_cell_fixpoint_invalid oneAreaEmpty9 rfl rfl (List.range 9) (by decide)
      (by decide) (by decide) ((reduce_options_fix_iff oneAreaEmpty9).2 (by decide))
      0 (by decide) (by decide)⟩

/-! ### Claims C1 and C10: the solver's lookahead loop -/

/-- The live grid of a `SudokuSolver((2, 2), board)`. -/
def live4 : Grid := mkGrid 2 2 none

/-- C1: the lookahead trial grid is *not* a clone of the live grid.
`solve()` constructs every trial as `SudokuGrid()` — the default 3×3
constructor — and only copies the live candidate sets into its first
entries.  For a 4×4 solver the trial has side 9 and 81 cells instead of 4
and 16, its areas are the standard 9×9 families rather than the live
grid's, and `set_values(row, col, {v})` indexes with the trial's side, so
the assignment meant for live cell (1,1) (flat index 5) lands at trial
index `1*9+1 = 10` while trial cell 5 keeps its copied live set. -/
theorem C1_trial_not_a_clone :
    live4.side = 4 ∧ live4.grid.length = 16 ∧
    (mkTrial live4).side = 9 ∧ (mkTrial live4).grid.length = 81 ∧
    (mkTrial live4).areas ≠ live4.areas ∧
    (set_values (mkTrial live4) 1 1 {1}).grid.getD 10 ∅ = {1} ∧
    (set_values (mkTrial live4) 1 1 {1}).grid.getD 5 ∅ = Finset.Icc 1 4 :=
  ⟨rfl, by decide, rfl, by decide, by decide, by decide, by decide⟩

theorem surviving_empty (G : Grid) (c : ℕ) (h : G.grid.getD c ∅ = ∅) :
    surviving G c = ∅ := by
  unfold surviving
  rw [h, Finset.filter_empty]

theorem set_values_div_mod (g : Grid) (idx : ℕ) (v : Finset ℕ) :
    (set_values g (idx / g.side) (idx % g.side) v).grid = g.grid.set idx v := by
  show g.grid.set (idx / g.side * g.side + idx % g.side) v = g.grid.set idx v
  have h : idx / g.side * g.side + idx % g.side = idx := by
    rw [Nat.mul_comm]
    exact Nat.div_add_mod idx g.side
  rw [h]

theorem getD_set_empty (l : List (Finset ℕ)) (c : ℕ) :
    (l.set c ∅).getD c ∅ = ∅ := by
  rcases Nat.lt_or_ge c l.length with hc | hc
  · exact getD_set_self hc
  · rw [List.set_eq_of_length_le hc]
    exact getD_empty_of_le hc

/-- One pass of the `while` loop of `solve()` keeps the grid length and
keeps an empty cell empty: the surviving set of an empty cell is empty, and
all other updates either skip the cell or only narrow it via `simplify`. -/
theorem solveBody_preserves (G : Grid) (c : ℕ) (hemp : G.grid.getD c ∅ = ∅) :
    (solveBody G).grid.length = G.grid.length ∧ (solveBody G).grid.getD c ∅ = ∅ := by
  unfold solveBody
  have hstep : ∀ (g : Grid) (idx : ℕ),
      (g.grid.length = G.grid.length ∧ g.grid.getD c ∅ = ∅) →
      (((if (defined g).getD idx false = true then g
          else simplify (set_values g (idx / g.side) (idx % g.side)
            (surviving g idx))).grid.length = G.grid.length) ∧
        (if (defined g).getD idx false = true then g
          else simplify (set_values g (idx / g.side) (idx % g.side)
            (surviving g idx))).grid.getD c ∅ = ∅) := by
    intro g idx hP
    split
    · exact hP
    · set t := set_values g (idx / g.side) (idx % g.side) (surviving g idx) with ht
      have htgrid : t.grid = g.grid.set idx (surviving g idx) := set_values_div_mod g idx _
      have htlen : t.grid.length = G.grid.length := by
        rw [htgrid, List.length_set]
        exact hP.1
      have htempty : t.grid.getD c ∅ = ∅ := by
        rcases eq_or_ne idx c with rfl | hne
        · rw [htgrid, surviving_empty g idx hP.2]
          exact getD_set_empty g.grid idx
        · rw [htgrid, getD_set_ne hne]
          exact hP.2
      constructor
      · rw [simplify_length]
        exact htlen
      · have hsub := (simplify_cellwiseLE t).2 c
        rw [htempty] at hsub
        exact Finset.subset_empty.1 hsub
  have hfold : ∀ (l : List ℕ) (g : Grid),
      (g.grid.length = G.grid.length ∧ g.grid.getD c ∅ = ∅) →
      ((l.foldl (fun g idx =>
          if (defined g).getD idx false = true then g
          else simplify (set_values g (idx / g.side) (idx % g.side)
            (surviving g idx))) g).grid.length = G.grid.length ∧
        (l.foldl (fun g idx =>
          if (defined g).getD idx false = true then g
          else simplify (set_values g (idx / g.side) (idx % g.side)
            (surviving g idx))) g).grid.getD c ∅ = ∅) := by
    intro l
    induction l with
    | nil => intro g hg; exact hg
    | cons x t ih => intro g hg; exact ih _ (hstep g x hg)
  exact hfold (List.range G.grid.length) G ⟨rfl, hemp⟩

theorem allDefined_false_of_empty (g : Grid) (c : ℕ) (hc : c < g.grid.length)
    (h : g.grid.getD c ∅ = ∅) : allDefined g = false := by
  rw [Bool.eq_false_iff, Ne]
  intro hall
  unfold allDefined defined at hall
  rw [List.all_eq_true] at hall
  have hcell : g.grid.getD c ∅ = g.grid[c] := by
    simp [List.getD_eq_getElem?_getD, List.getElem?_eq_getElem hc]
  have hmem : ((∅ : Finset ℕ).card == 1) ∈ g.grid.map (fun s => s.card == 1) := by
    refine List.mem_map.2 ⟨g.grid[c], List.getElem_mem hc, ?_⟩
    rw [← hcell, h]
  have := hall _ hmem
  rw [id] at this
  cases this

/-- C10: once a cell of the live grid inside `solve()` has an empty
candidate set, it stays empty through every further iteration of the
`while` loop — its surviving set is empty and `reduce_options` only
removes — so `all(self.grid.defined)` is false at every iteration and the
loop never exits. -/
theorem C10_empty_cell_never_resolves (G : Grid) (c : ℕ)
    (hc : c < G.grid.length) (hempty : G.grid.getD c ∅ = ∅) :
    surviving G c = ∅ ∧
    ∀ k : ℕ, (solveBody^[k] G).grid.getD c ∅ = ∅ ∧
      allDefined (solveBody^[k] G) = false := by
  have hiter : ∀ k : ℕ, (solveBody^[k] G).grid.length = G.grid.length ∧
      (solveBody^[k] G).grid.getD c ∅ = ∅ := by
    intro k
    induction k with
    | zero => exact ⟨rfl, hempty⟩
    | succ k ih =>
      rw [Function.iterate_succ_apply']
      have h := solveBody_preserves (solveBody^[k] G) c ih.2
      exact ⟨h.1.trans ih.1, h.2⟩
  refine ⟨surviving_empty G c hempty, fun k => ?_⟩
  refine ⟨(hiter k).2, ?_⟩
  exact allDefined_false_of_empty _ c (by rw [(hiter k).1]; exact hc) (hiter k).2

/-- Witness for `C10_empty_cell_never_resolves` on the one-cell grid whose
only candidate set was emptied. -/
theorem C10_empty_cell_never_resolves_witness :
    (0 < emptyCellGrid.grid.length ∧ emptyCellGrid.grid.getD 0 ∅ = ∅) ∧
    (surviving emptyCellGrid 0 = ∅ ∧
      ∀ k : ℕ, (solveBody^[k] emptyCellGrid).grid.getD 0 ∅ = ∅ ∧
        allDefined (solveBody^[k] emptyCellGrid) = false) :=
  ⟨⟨by decide, by decide⟩,
    C10_empty_cell_never_resolves emptyCellGrid 0 (by decide) (by decide)⟩
